import Mathlib

/-!
Verification of the iCub learningMachine merge module: the format-driven
data selection and merge engine (PortSource / SourceList / IndexSelector /
CompositeSelector / RootSelector / MergeModule).

Text is modelled as List Char (one Char per std::string byte).  Machine
doubles are modelled as rationals; C++ int is modelled as unbounded Int
(no claim here depends on 32-bit overflow).  Bottles (the middleware's
StructuredRecord) are modelled by the inductive type Value below; the
external middleware's documented behaviour of Bottle::get (a null Value
for an out-of-range position) is part of the model.
-/

namespace Merge

abbrev Str := List Char

/-- Whitespace characters recognised by the text tokenizer and by
stream-based integer extraction. -/
def isWS (c : Char) : Bool := c = ' ' || c = '\n' || c = '\t' || c = '\r'

/-- Decimal digit value of a character. -/
def digitVal (c : Char) : Nat := c.toNat - 48

/-- The numeric value of a list of decimal digit characters, read left to
right (how stream extraction accumulates digits). -/
def digitsVal (ds : Str) : Int :=
  ds.foldl (fun a c => 10 * a + (digitVal c : Int)) 0

/-- The digit-reading step of stream integer extraction: the leading run
of digits, which must be non-empty, gives the value under the already-read
sign; everything after it is left unread (and ignored by stringToInt's
caller). -/
def readDigits (sign : Int) (cs : Str) (orig : Str) : Except String Int :=
  match cs.takeWhile Char.isDigit with
  | [] => .error ("Could not read integer from " ++ String.mk orig)
  | ds => .ok (sign * digitsVal ds)

/-- Embeds IndexSelector::stringToInt: C++ istringstream integer
extraction.  Leading whitespace is skipped, an optional sign is read, then
a non-empty run of digits; extraction fails only when no digit follows;
any trailing characters are ignored. -/
def stringToInt (str : Str) : Except String Int :=
  match str.dropWhile isWS with
  | [] => readDigits 1 [] str
  | c :: rest =>
      if c = '-' then readDigits (-1) rest str
      else if c = '+' then readDigits 1 rest str
      else readDigits 1 (c :: rest) str

/-- Embeds IndexSelector::split for a single-character delimiter (the two
call sites use "," and "-"): splits at every occurrence of the delimiter,
keeping empty parts; the result is always non-empty. -/
def splitChar (delim : Char) : Str → List Str
  | [] => [[]]
  | c :: rest =>
    if c = delim then [] :: splitChar delim rest
    else
      match splitChar delim rest with
      | [] => [[c]]
      | p :: ps => (c :: p) :: ps

/-- The inclusive integer range start..end, as pushed by the range-expansion
loop in IndexSelector::loadIndices. -/
def rangeList (a b : Int) : List Int :=
  (List.range (b - a + 1).toNat).map (fun (k : Nat) => a + (k : Int))

/-- One index token of a bracket group, as handled by the body of the loop
in IndexSelector::loadIndices: split on the dash; one part is a single
index, two parts an inclusive range (rejected when start exceeds end), any
longer split an illegal range. -/
def parseIdxToken (tok : Str) : Except String (List Int) :=
  match splitChar '-' tok with
  | [] => .error ("Unexpected problem parsing: " ++ String.mk tok)
  | [x] => do
      let v ← stringToInt x
      .ok [v]
  | [x, y] => do
      let a ← stringToInt x
      let b ← stringToInt y
      if a > b then
        .error ("End of range before start of range: " ++ String.mk tok)
      else
        .ok (rangeList a b)
  | _ => .error ("Illegal range specification: " ++ String.mk tok)

/-- Embeds IndexSelector::loadIndices: the bracket-group content is split
on commas and each token contributes its indices, in order, to the one
dimension list this call produces. -/
def loadIndices (s : Str) : Except String (List Int) :=
  (splitChar ',' s).foldlM (fun acc tok => do
    let l ← parseIdxToken tok
    pure (acc ++ l)) []

/-- Position of the first occurrence of a character in a list (std::string
find with a single-character needle, from position 0). -/
def findChar (c : Char) : Str → Option Nat
  | [] => none
  | x :: xs => if x = c then some 0 else (findChar c xs).map (· + 1)

/-- std::string find(c, start): first occurrence at or after a position. -/
def findFrom (cs : Str) (c : Char) (start : Nat) : Option Nat :=
  (findChar c (cs.drop start)).map (· + start)

/-- std::string substr(pos, len). -/
def substr (cs : Str) (pos len : Nat) : Str := (cs.drop pos).take len

theorem findChar_lt_length {c : Char} {l : Str} {i : Nat}
    (h : findChar c l = some i) : i < l.length := by
  induction l generalizing i with
  | nil => simp [findChar] at h
  | cons x xs ih =>
    rw [findChar] at h
    by_cases hx : x = c
    · rw [if_pos hx] at h
      cases h
      simp
    · rw [if_neg hx] at h
      rcases hm : findChar c xs with _ | j
      · rw [hm] at h
        simp at h
      · rw [hm] at h
        simp at h
        have := ih hm
        simp only [List.length_cons]
        omega

theorem findFrom_bounds {cs : Str} {c : Char} {s i : Nat}
    (h : findFrom cs c s = some i) : s ≤ i ∧ i < cs.length := by
  simp only [findFrom, Option.map_eq_some'] at h
  obtain ⟨j, hj, rfl⟩ := h
  have := findChar_lt_length hj
  have hd : (cs.drop s).length = cs.length - s := List.length_drop s cs
  omega

/-- Embeds the bracket-scanning loop of IndexSelector::loadFormat,
entered with idxStart at an opening bracket: the matching closing bracket
is looked up (missing one is an error), the group content between them is
loaded as one dimension, and the next opening bracket, when it exists,
must not lie inside the current group. -/
def loadBrackets (cs : Str) (idxStart : Nat) : Except String (List (List Int)) :=
  match h : findFrom cs ']' idxStart with
  | none => .error "Missing closing bracket ]"
  | some idxEnd => do
      let dim ← loadIndices (substr cs (idxStart + 1) (idxEnd - idxStart - 1))
      match h2 : findFrom cs '[' (idxStart + 1) with
      | none => .ok [dim]
      | some idxStart2 =>
          if idxStart2 < idxEnd then .error "Unexpected opening bracket ["
          else do
            let rest ← loadBrackets cs idxStart2
            .ok (dim :: rest)
termination_by cs.length - idxStart
decreasing_by
  have hb := findFrom_bounds h2
  omega

/-- Embeds IndexSelector::loadFormat on a port_spec string: everything
before the first opening bracket is the port name (the whole string when
there is none, giving an empty index path), and the bracket groups are
scanned left to right into the index-path dimensions. -/
def loadFormat (w : Str) : Except String (Str × List (List Int)) :=
  match findChar '[' w with
  | none => .ok (w, [])
  | some i => do
      let dims ← loadBrackets w i
      .ok (w.take i, dims)

/-! ### The format Bottle

The module receives its format as a middleware Bottle value: the text of
the --format option is tokenized on whitespace with parentheses opening
and closing nested lists, and purely numeric words become numeric atoms
rather than strings.  That text-to-Bottle step belongs to the external
middleware; it is modelled here from the grammar in the specification
(bottle_spec, port_spec, whitespace-separated words). -/

/-- An element of a format Bottle: a string word, a numeric atom (a word
that reads entirely as a number, which the tree builder rejects), or a
nested list. -/
inductive FormatVal where
  | str (w : Str)
  | num (w : Str)
  | list (elems : List FormatVal)
deriving Repr, BEq

/-- A character that continues a word token: anything except whitespace
and parentheses. -/
def wordChar (c : Char) : Bool := !(isWS c || c = '(' || c = ')')

/-- A word that the external tokenizer reads as an integer atom:
an optional sign followed by one or more digits and nothing else. -/
def isNumWord (w : Str) : Bool :=
  match w with
  | [] => false
  | c :: rest =>
      if c = '-' || c = '+' then !rest.isEmpty && rest.all Char.isDigit
      else (c :: rest).all Char.isDigit

theorem length_dropWhile_le (p : Char → Bool) (l : Str) :
    (l.dropWhile p).length ≤ l.length := by
  induction l with
  | nil => simp [List.dropWhile]
  | cons x xs ih =>
    rw [List.dropWhile]
    by_cases hx : p x
    · simp only [hx]
      simp only [List.length_cons]
      omega
    · simp [hx]

/-- One token of the format text. -/
inductive Tok where
  | lpar
  | rpar
  | word (w : Str)
deriving Repr, DecidableEq

/-- Splits format text into parenthesis and word tokens, discarding
whitespace; the first argument carries the word read so far, when one is
open. -/
def tokenizeAux (acc : Option Str) : Str → List Tok
  | [] =>
      match acc with
      | none => []
      | some w => [.word w]
  | c :: rest =>
      if wordChar c then
        tokenizeAux (some ((match acc with | none => [] | some w => w) ++ [c])) rest
      else
        (match acc with | none => [] | some w => [Tok.word w]) ++
        (if c = '(' then [Tok.lpar] else if c = ')' then [Tok.rpar] else []) ++
        tokenizeAux none rest

/-- Tokenization of format text. -/
def tokenize (cs : Str) : List Tok := tokenizeAux none cs

/-- Classifies a word token as a Bottle element. -/
def classifyWord (w : Str) : FormatVal :=
  if isNumWord w then .num w else .str w

/-- Parses a token stream into the elements of the outermost sequence,
carrying a stack of the unclosed enclosing sequences (each with its
elements so far, in reverse) and the current sequence's elements in
reverse; fails on unbalanced parentheses. -/
def parseStack : List Tok → List (List FormatVal) → List FormatVal →
    Option (List FormatVal)
  | [], [], acc => some acc.reverse
  | [], _ :: _, _ => none
  | .word w :: rest, stk, acc => parseStack rest stk (classifyWord w :: acc)
  | .lpar :: rest, stk, acc => parseStack rest (acc :: stk) []
  | .rpar :: rest, stk, acc =>
      match stk with
      | [] => none
      | up :: stk2 => parseStack rest stk2 (.list acc.reverse :: up)

/-! ### The selector tree -/

/-- The selector tree built from a format Bottle: an IndexSelector leaf
(port name and index path) or a CompositeSelector with its children.  The
RootSelector is represented by the top-level list of children (it differs
from a composite only in select, which adds no wrapping list). -/
inductive Tree where
  | leaf (name : Str) (indices : List (List Int))
  | comp (children : List Tree)
deriving Repr, BEq

/-- Embeds CompositeSelector::loadFormat: each string element becomes an
IndexSelector leaf, each nested list a CompositeSelector, and any other
element kind is rejected. -/
def loadFormatList : List FormatVal → Except String (List Tree)
  | [] => .ok []
  | .str w :: vs => do
      let (n, idxs) ← loadFormat w
      let ts ← loadFormatList vs
      .ok (.leaf n idxs :: ts)
  | .num _ :: _ => .error "Unexpected token during parsing: "
  | .list es :: vs => do
      let cs ← loadFormatList es
      let ts ← loadFormatList vs
      .ok (.comp cs :: ts)

/-- The configuration pipeline for the --format option: the option text
must denote a single Bottle list (otherwise configuration fails), and the
list elements become the children of the RootSelector. -/
def parseFormatText (cs : Str) : Except String (List Tree) :=
  match parseStack (tokenize cs) [] [] with
  | some [.list elems] => loadFormatList elems
  | _ => .error "The format must be a list!"

/-! ### Rendering (toString of the selector classes) -/

/-- A decimal digit character. -/
def digitChar (n : Nat) : Char :=
  match n with
  | 0 => '0'
  | 1 => '1'
  | 2 => '2'
  | 3 => '3'
  | 4 => '4'
  | 5 => '5'
  | 6 => '6'
  | 7 => '7'
  | 8 => '8'
  | _ => '9'

/-- Decimal rendering of a natural number (most significant digit
first), as a C++ output stream prints a non-negative int. -/
def renderNat (n : Nat) : Str :=
  if n < 10 then [digitChar n]
  else renderNat (n / 10) ++ [digitChar (n % 10)]
termination_by n
decreasing_by
  have : 0 < n := by omega
  exact Nat.div_lt_self this (by omega)

/-- Stream rendering of an int (indices parsed from a format are in fact
never negative). -/
def renderInt (k : Int) : Str :=
  if k < 0 then '-' :: renderNat (-k).toNat else renderNat k.toNat

/-- The comma-separated index list inside one printed bracket group, as
produced by the inner loop of IndexSelector::toString. -/
def renderDim : List Int → Str
  | [] => []
  | [x] => renderInt x
  | x :: y :: ys => renderInt x ++ (',' :: renderDim (y :: ys))

/-- The printed bracket groups of IndexSelector::toString. -/
def groupChars : List (List Int) → Str
  | [] => []
  | d :: ds => '[' :: (renderDim d ++ (']' :: groupChars ds))

/-- Indentation spaces. -/
def spaces (n : Nat) : Str := List.replicate n ' '

/-- Embeds DataSelector::toString over a sibling list: an IndexSelector
prints its indented name, bracket groups and a newline; a
CompositeSelector prints an indented opening parenthesis line, its
children indented two further spaces, and an indented closing
parenthesis line. -/
def listToString (indent : Nat) : List Tree → Str
  | [] => []
  | .leaf n idxs :: ts =>
      (spaces indent ++ n ++ groupChars idxs ++ ['\n']) ++ listToString indent ts
  | .comp cs :: ts =>
      (spaces indent ++ ['(', '\n']) ++ listToString (indent + 2) cs ++
        (spaces indent ++ [')', '\n']) ++ listToString indent ts

/-- RootSelector::toString (inherited unchanged from CompositeSelector):
the printed form of the whole tree, with the root's children wrapped in
one parenthesis pair. -/
def rootToString (cs : List Tree) : Str := listToString 0 [Tree.comp cs]

/-- The format Bottle a printed tree denotes: each leaf one word, each
composite one nested list. -/
def fvOfTreeList : List Tree → List FormatVal
  | [] => []
  | .leaf n idxs :: ts => .str (n ++ groupChars idxs) :: fvOfTreeList ts
  | .comp cs :: ts => .list (fvOfTreeList cs) :: fvOfTreeList ts

/-- The token stream a printed sibling list tokenizes to. -/
def tokWordsList : List Tree → List Tok
  | [] => []
  | .leaf n idxs :: ts => .word (n ++ groupChars idxs) :: tokWordsList ts
  | .comp cs :: ts => .lpar :: (tokWordsList cs ++ (.rpar :: tokWordsList ts))

/-- Well-formedness of a leaf as established by a successful parse from
format text: the name consists of word characters without an opening
bracket; a leaf without indices has a non-empty, non-numeric name (a
numeric word would have been a numeric Bottle atom and rejected); every
dimension is non-empty with non-negative indices. -/
def wfLeaf (n : Str) (idxs : List (List Int)) : Bool :=
  n.all (fun c => wordChar c && !(c = '[')) &&
  (match idxs with
   | [] => !n.isEmpty && !isNumWord n
   | _ :: _ => true) &&
  idxs.all (fun d => !d.isEmpty && d.all (fun k => 0 ≤ k))

/-- Well-formedness of a selector sibling list. -/
def wfList : List Tree → Bool
  | [] => true
  | .leaf n idxs :: ts => wfLeaf n idxs && wfList ts
  | .comp cs :: ts => wfList cs && wfList ts

/-- Well-formedness of format Bottle elements as delivered by the
tokenizer: every string word is a non-empty run of word characters that
does not read as a number (those became numeric atoms). -/
def wfFVList : List FormatVal → Bool
  | [] => true
  | .str w :: vs => (!w.isEmpty && w.all wordChar && !isNumWord w) && wfFVList vs
  | .num _ :: vs => wfFVList vs
  | .list es :: vs => wfFVList es && wfFVList vs

/-! ### Bottles and selection -/

/-- A Bottle element: an integer atom, a float atom, a string atom, a
nested Bottle, or the middleware's null Value (what Bottle::get returns
for a position outside the record). -/
inductive Value where
  | i (n : Int)
  | f (q : Rat)
  | s (str : Str)
  | l (elems : List Value)
  | nullV
deriving Repr, BEq

/-- A Bottle is an ordered sequence of elements. -/
abbrev Bottle := List Value

/-- Bottle::get: the element at a 0-based position, or the null Value when
the position (possibly negative here, since indices are decremented) lies
outside the record.  This is the external middleware's documented
behaviour: an out-of-range get does not raise an error. -/
def bottleGet (b : Bottle) (idx : Int) : Value :=
  if idx < 0 then .nullV else b.getD idx.toNat .nullV

/-- Value::isList. -/
def Value.isList : Value → Bool
  | .l _ => true
  | _ => false

/-- The SourceList's map from port names to their PortSource's cached
Bottle (a PortSource that never received data still holds its
default-constructed empty Bottle). -/
abbrev SourceMap := List (Str × Bottle)

/-- SourceList::hasSource. -/
def hasSource (sm : SourceMap) (name : Str) : Bool :=
  sm.any (fun p => p.1 = name)

/-- SourceList::getSource followed by PortSource::getData: the cached
record of a registered source; retrieving an unregistered name throws. -/
def getSourceData (sm : SourceMap) (name : Str) : Except String Bottle :=
  match sm.find? (fun p => p.1 = name) with
  | some p => .ok p.2
  | none => .error "Attempt to retrieve inexistent source."

mutual

/-- Embeds IndexSelector::selectRecursive: the first dimension list is
iterated and the remaining dimensions are handled per index.  The Bottle
argument is the current record; the result is the list of elements the
call appends to the output Bottle. -/
def selectRecursive : List (List Int) → Bottle → Except String Bottle
  | [], _ => .ok []
  | d :: rest, inp => selectLoop d rest inp
termination_by dims _ => (sizeOf dims, 0)
decreasing_by
  apply Prod.Lex.left
  simp

/-- The loop body of IndexSelector::selectRecursive over the indices of
the current dimension: each 1-based index i selects position i-1; at the
last dimension a nested record is spliced in unwrapped and any other
element is appended as is, while at an earlier dimension a non-list
element is an error and a nested record is recursed into. -/
def selectLoop : List Int → List (List Int) → Bottle → Except String Bottle
  | [], _, _ => .ok []
  | idx1 :: is, rest, inp => do
      let v := bottleGet inp (idx1 - 1)
      let here ← (match rest with
        | [] =>
            match v with
            | .l elems => .ok elems
            | other => .ok [other]
        | r1 :: rs =>
            match v with
            | .l elems => selectRecursive (r1 :: rs) elems
            | _ => .error "Cannot index non-list type")
      let there ← selectLoop is rest inp
      .ok (here ++ there)
termination_by idxs rest _ => (sizeOf rest, sizeOf idxs + 1)
decreasing_by
  · apply Prod.Lex.right
    omega
  · apply Prod.Lex.right
    simp

end

/-- Embeds IndexSelector::select for a leaf with cached record data: an
empty index path splices in the whole record via addBottle, a non-empty
one runs selectRecursive from the first dimension. -/
def indexContrib (indices : List (List Int)) (data : Bottle) :
    Except String Bottle :=
  match indices with
  | [] => .ok data
  | _ :: _ => selectRecursive indices data

/-- Embeds DataSelector::select for a list of sibling selectors run in
declared order against a shared output Bottle (the accumulator argument),
returning the final output Bottle: a leaf appends its contribution from
its source's cached record; a composite first builds a fresh nested
record from its children (Bottle::addList) and appends that single
element. -/
def selectList : List Tree → SourceMap → Bottle → Except String Bottle
  | [], _, bot => .ok bot
  | .leaf n idxs :: ts, sm, bot => do
      let data ← getSourceData sm n
      let contrib ← indexContrib idxs data
      selectList ts sm (bot ++ contrib)
  | .comp cs :: ts, sm, bot => do
      let inner ← selectList cs sm []
      selectList ts sm (bot ++ [.l inner])

/-- RootSelector::select: the children are evaluated in declared order
directly against the given output Bottle. -/
def rootSelect (children : List Tree) (sm : SourceMap) (bot : Bottle) :
    Except String Bottle :=
  selectList children sm bot

/-- CompositeSelector::select as a single node: one nested record is
opened in the output Bottle and the children are evaluated into it. -/
def compositeSelect (children : List Tree) (sm : SourceMap) (bot : Bottle) :
    Except String Bottle :=
  selectList [.comp children] sm bot

/-- What the last dimension of selectRecursive appends for one record and
one dimension list: per selected index, a nested record is spliced in
unwrapped and any other element (a scalar, or the null value of an
out-of-range lookup) is appended as a single element. -/
def lastDimExpand (inp : Bottle) (d : List Int) : Bottle :=
  d.flatMap (fun i =>
    match bottleGet inp (i - 1) with
    | .l es => es
    | v => [v])

/-! ### SourceList registration -/

/-- Embeds SourceList::addSource against an external name-resolution
environment (Network::queryName validity, as used by PortSource::connect):
when the name is unregistered, a fresh PortSource with an empty cached
Bottle is stored in the map first, and only then is the connection
attempted; a failed connection throws but the map keeps the entry.  The
returned pair is the updated map and the call's outcome. -/
def addSource (net : Str → Bool) (sm : SourceMap) (name : Str) :
    SourceMap × Except String Unit :=
  if hasSource sm name then (sm, .ok ())
  else
    let sm2 := (name, ([] : Bottle)) :: sm
    if net name then (sm2, .ok ())
    else (sm2, .error ("Cannot find requested port: " ++ String.mk name))

/-! ### The MergeModule frequency handling -/

/-- The MergeModule state relevant to frequency commands: the desired
period in seconds (a double, modelled as a rational; the constructor sets
0.1). -/
structure MergeModule where
  desiredPeriod : Rat
deriving Repr, DecidableEq

/-- The constructor's initial state. -/
def initialModule : MergeModule := { desiredPeriod := 1/10 }

/-- MergeModule::setDesiredPeriod: stores the period unconditionally. -/
def setDesiredPeriod (m : MergeModule) (p : Rat) : MergeModule :=
  { m with desiredPeriod := p }

/-- MergeModule::setFrequency (used from configure): rejects a
non-positive frequency, otherwise stores the reciprocal as the period. -/
def setFrequency (m : MergeModule) (f : Rat) : Except String MergeModule :=
  if f ≤ 0 then .error "Frequency must be larger than 0"
  else .ok (setDesiredPeriod m (1 / f))

/-- A command argument Value as seen by MergeModule::respond. -/
inductive CVal where
  | i32 (n : Int)
  | f64 (q : Rat)
  | vocab (s : String)
  | vstr (s : String)
  | nullC
deriving Repr, DecidableEq

/-- Value::asFloat64 on command arguments (integers convert, anything
non-numeric reads as 0). -/
def asFloat64 : CVal → Rat
  | .i32 n => (n : Rat)
  | .f64 q => q
  | _ => 0

/-- A numeric command argument (Value::isInt32 or Value::isFloat64). -/
def isNumericCV : CVal → Bool
  | .i32 _ => true
  | .f64 _ => true
  | _ => false

/-- Embeds MergeModule::respond restricted to its observable effect on
the module state and its success flag.  The freq case checks only that
a second, numeric command element exists and then stores 1/f via
setDesiredPeriod directly — it does not call setFrequency and performs no
validation (in the C++ source, f = 0 makes the stored double infinite;
this rational model is only used at non-zero arguments).  The help and
info cases reply and report success without touching the state. -/
def respond (m : MergeModule) (cmd : List CVal) : Bool × MergeModule :=
  match cmd.getD 0 .nullC with
  | .vocab v =>
      if v = "freq" then
        if cmd.length > 1 && isNumericCV (cmd.getD 1 .nullC) then
          (true, setDesiredPeriod m (1 / asFloat64 (cmd.getD 1 .nullC)))
        else (false, m)
      else if v = "help" then (true, m)
      else if v = "info" then (true, m)
      else (false, m)
  | _ => (false, m)

/-! ## Basic lemmas on ranges, splitting and integer extraction -/

theorem ebind_ok {ε α β : Type} (a : α) (f : α → Except ε β) :
    ((Except.ok a : Except ε α) >>= f) = f a := rfl

theorem ebind_error {ε α β : Type} (e : ε) (f : α → Except ε β) :
    ((Except.error e : Except ε α) >>= f) = .error e := rfl

theorem mem_rangeList {a b z : Int} : z ∈ rangeList a b ↔ a ≤ z ∧ z ≤ b := by
  unfold rangeList
  rw [List.mem_map]
  constructor
  · rintro ⟨k, hk, hz⟩
    rw [List.mem_range] at hk
    omega
  · intro h
    refine ⟨(z - a).toNat, ?_, ?_⟩
    · rw [List.mem_range]
      omega
    · omega

theorem rangeList_length (a b : Int) :
    (rangeList a b).length = (b - a + 1).toNat := by
  rw [rangeList, List.length_map, List.length_range]

theorem rangeList_ne_nil {a b : Int} (h : a ≤ b) : rangeList a b ≠ [] := by
  intro hnil
  have hlen := rangeList_length a b
  rw [hnil] at hlen
  simp at hlen
  omega

theorem splitChar_ne_nil (d : Char) (l : Str) : splitChar d l ≠ [] := by
  cases l with
  | nil => simp [splitChar]
  | cons c rest =>
    simp only [splitChar]
    split
    · simp
    · split <;> simp

theorem splitChar_no_delim {d : Char} {l : Str} (h : ∀ c ∈ l, ¬(c = d)) :
    splitChar d l = [l] := by
  induction l with
  | nil => simp [splitChar]
  | cons c rest ih =>
    have hc : ¬(c = d) := h c (by simp)
    have hrest : ∀ x ∈ rest, ¬(x = d) := fun x hx => h x (by simp [hx])
    rw [splitChar, if_neg hc, ih hrest]

theorem splitChar_append_delim {d : Char} {w s : Str} (h : ∀ c ∈ w, ¬(c = d)) :
    splitChar d (w ++ d :: s) = w :: splitChar d s := by
  induction w with
  | nil => simp [splitChar]
  | cons c rest ih =>
    have hc : ¬(c = d) := h c (by simp)
    have hrest : ∀ x ∈ rest, ¬(x = d) := fun x hx => h x (by simp [hx])
    rw [List.cons_append, splitChar, if_neg hc, ih hrest]

theorem splitChar_parts_no_delim {d : Char} {l : Str} :
    ∀ p ∈ splitChar d l, ∀ c ∈ p, ¬(c = d) := by
  induction l with
  | nil => simp [splitChar]
  | cons c rest ih =>
    simp only [splitChar]
    by_cases hc : c = d
    · rw [if_pos hc]
      intro p hp
      rcases List.mem_cons.mp hp with rfl | hp2
      · simp
      · exact ih p hp2
    · rw [if_neg hc]
      rcases hm : splitChar d rest with _ | ⟨p0, ps⟩
      · exact absurd hm (splitChar_ne_nil d rest)
      · intro p hp
        rcases List.mem_cons.mp hp with rfl | hp2
        · intro x hx
          rcases List.mem_cons.mp hx with rfl | hx2
          · exact hc
          · exact ih p0 (by rw [hm]; simp) x hx2
        · exact ih p (by rw [hm]; simp [hp2])

theorem dropWhile_head_false {p : Char → Bool} {c : Char} {l : Str}
    (h : p c = false) : (c :: l).dropWhile p = c :: l := by
  simp [List.dropWhile, h]

theorem takeWhile_head_false {p : Char → Bool} {c : Char} {l : Str}
    (h : p c = false) : (c :: l).takeWhile p = [] := by
  simp [List.takeWhile, h]

theorem takeWhile_append_all {p : Char → Bool} {w rest : Str}
    (hall : ∀ c ∈ w, p c = true)
    (hrest : ∀ c, rest.head? = some c → p c = false) :
    (w ++ rest).takeWhile p = w := by
  induction w with
  | nil =>
    cases rest with
    | nil => simp
    | cons r rs =>
      simp only [List.nil_append]
      exact takeWhile_head_false (hrest r rfl)
  | cons c cs ih =>
    have h1 : p c = true := hall c (by simp)
    have h2 := ih (fun x hx => hall x (by simp [hx]))
    rw [List.cons_append, List.takeWhile_cons, h1, h2]
    simp

theorem digit_not_ws {c : Char} (h : c.isDigit = true) : isWS c = false := by
  cases hw : isWS c
  · rfl
  · exfalso
    simp only [isWS, Bool.or_eq_true, decide_eq_true_eq] at hw
    rcases hw with ((rfl | rfl) | rfl) | rfl <;> simp at h

theorem digit_not_minus {c : Char} (h : c.isDigit = true) : ¬(c = '-') := by
  rintro rfl
  simp at h

theorem digit_not_plus {c : Char} (h : c.isDigit = true) : ¬(c = '+') := by
  rintro rfl
  simp at h

theorem digit_wordChar {c : Char} (h : c.isDigit = true) : wordChar c = true := by
  have hws := digit_not_ws h
  have hl : ¬(c = '(') := by rintro rfl; simp at h
  have hr : ¬(c = ')') := by rintro rfl; simp at h
  simp [wordChar, hws, hl, hr]

theorem digitsVal_nonneg : ∀ ds : Str, 0 ≤ digitsVal ds := by
  have gen : ∀ (ds : Str) (a : Int), 0 ≤ a →
      0 ≤ ds.foldl (fun x c => 10 * x + (digitVal c : Int)) a := by
    intro ds
    induction ds with
    | nil => intro a ha; simpa using ha
    | cons c cs ih =>
      intro a ha
      simp only [List.foldl_cons]
      apply ih
      have : (0 : Int) ≤ (digitVal c : Int) := Int.natCast_nonneg _
      omega
  intro ds
  exact gen ds 0 le_rfl

theorem stringToInt_dropWhile_nil {s : Str} (hm : s.dropWhile isWS = []) :
    stringToInt s = readDigits 1 [] s := by
  rw [stringToInt, hm]

theorem stringToInt_dropWhile_cons {s rest : Str} {c : Char}
    (hm : s.dropWhile isWS = c :: rest) :
    stringToInt s =
      if c = '-' then readDigits (-1) rest s
      else if c = '+' then readDigits 1 rest s
      else readDigits 1 (c :: rest) s := by
  rw [stringToInt, hm]

theorem stringToInt_digits {ds rest : Str} (hne : ds ≠ [])
    (hd : ∀ c ∈ ds, c.isDigit = true)
    (hr : ∀ c, rest.head? = some c → c.isDigit = false) :
    stringToInt (ds ++ rest) = .ok (digitsVal ds) := by
  cases ds with
  | nil => exact absurd rfl hne
  | cons c cs =>
    have hc := hd c (by simp)
    have hm : (c :: cs ++ rest).dropWhile isWS = c :: (cs ++ rest) := by
      rw [List.cons_append]
      exact dropWhile_head_false (digit_not_ws hc)
    rw [stringToInt_dropWhile_cons hm,
      if_neg (digit_not_minus hc), if_neg (digit_not_plus hc),
      readDigits, ← List.cons_append, takeWhile_append_all hd hr]
    simp

theorem stringToInt_no_digit {s : Str} (h : ∀ c ∈ s, c.isDigit = false) :
    stringToInt s = .error ("Could not read integer from " ++ String.mk s) := by
  have hsub : ∀ c ∈ s.dropWhile isWS, c.isDigit = false := by
    intro c hc
    exact h c (List.Sublist.mem hc (List.dropWhile_sublist isWS))
  rcases hm : s.dropWhile isWS with _ | ⟨c, rest⟩
  · rw [stringToInt_dropWhile_nil hm, readDigits]
    simp
  · have hrest : ∀ x ∈ rest, x.isDigit = false := by
      intro x hx
      exact hsub x (by rw [hm]; simp [hx])
    have htw : rest.takeWhile Char.isDigit = [] := by
      cases rest with
      | nil => simp
      | cons r rs => exact takeWhile_head_false (hrest r (by simp))
    have hcw : c.isDigit = false := hsub c (by rw [hm]; simp)
    have htw2 : (c :: rest).takeWhile Char.isDigit = [] :=
      takeWhile_head_false hcw
    rw [stringToInt_dropWhile_cons hm]
    by_cases hcm : c = '-'
    · rw [if_pos hcm, readDigits, htw]
    · rw [if_neg hcm]
      by_cases hcp : c = '+'
      · rw [if_pos hcp, readDigits, htw]
      · rw [if_neg hcp, readDigits, htw2]

theorem readDigits_pos_ok {cs orig : Str} {v : Int}
    (h : readDigits 1 cs orig = .ok v) : 0 ≤ v := by
  rw [readDigits] at h
  rcases htw : cs.takeWhile Char.isDigit with _ | ⟨d0, ds⟩ <;> rw [htw] at h
  · simp at h
  · simp only [Except.ok.injEq] at h
    have := digitsVal_nonneg (d0 :: ds)
    omega

theorem stringToInt_nonneg_of_no_minus {s : Str} {v : Int}
    (hnm : ∀ c ∈ s, ¬(c = '-')) (h : stringToInt s = .ok v) : 0 ≤ v := by
  have hsub : ∀ c ∈ s.dropWhile isWS, ¬(c = '-') := by
    intro c hc
    exact hnm c (List.Sublist.mem hc (List.dropWhile_sublist isWS))
  rcases hm : s.dropWhile isWS with _ | ⟨c, rest⟩
  · rw [stringToInt_dropWhile_nil hm] at h
    exact readDigits_pos_ok h
  · have hcm : ¬(c = '-') := hsub c (by rw [hm]; simp)
    rw [stringToInt_dropWhile_cons hm, if_neg hcm] at h
    by_cases hcp : c = '+'
    · rw [if_pos hcp] at h
      exact readDigits_pos_ok h
    · rw [if_neg hcp] at h
      exact readDigits_pos_ok h

/-! ## Claim C7: index tokens inside a bracket group -/

/-- Claim C7 (confirmed): for every index token inside a bracket group, a
token splitting on the dash into exactly one part parses as a single
index; exactly two parts parses as an inclusive range expanded to all
integers from start to end, failing with a range-order error when start
exceeds end; more than two parts fails with a malformed-range error. -/
theorem index_token_range_semantics (tok : Str) :
    (∀ x v, splitChar '-' tok = [x] → stringToInt x = .ok v →
       parseIdxToken tok = .ok [v]) ∧
    (∀ x y a b, splitChar '-' tok = [x, y] →
       stringToInt x = .ok a → stringToInt y = .ok b →
       (a > b → parseIdxToken tok =
          .error ("End of range before start of range: " ++ String.mk tok)) ∧
       (a ≤ b → parseIdxToken tok = .ok (rangeList a b) ∧
          (rangeList a b).length = (b - a + 1).toNat ∧
          ∀ z, z ∈ rangeList a b ↔ a ≤ z ∧ z ≤ b)) ∧
    (∀ parts, splitChar '-' tok = parts → 2 < parts.length →
       parseIdxToken tok =
         .error ("Illegal range specification: " ++ String.mk tok)) := by
  refine ⟨?_, ?_, ?_⟩
  · intro x v hs hv
    simp [parseIdxToken, hs, hv, ebind_ok]
  · intro x y a b hs ha hb
    constructor
    · intro hab
      simp [parseIdxToken, hs, ha, hb, hab, ebind_ok]
    · intro hab
      have hng : ¬(a > b) := by omega
      refine ⟨?_, rangeList_length a b, fun z => mem_rangeList⟩
      simp [parseIdxToken, hs, ha, hb, hng, ebind_ok]
  · intro parts hs hlen
    rcases parts with _ | ⟨p1, rest1⟩
    · simp at hlen
    rcases rest1 with _ | ⟨p2, rest2⟩
    · simp at hlen
    rcases rest2 with _ | ⟨p3, rest3⟩
    · simp at hlen
    simp [parseIdxToken, hs]

/-- Witness for C7 at concrete tokens 5, 5-2, 2-4 and 1-2-3. -/
theorem index_token_range_semantics_witness :
    parseIdxToken ['5'] = .ok [5] ∧
    parseIdxToken ['5', '-', '2'] =
      .error ("End of range before start of range: " ++
        String.mk ['5', '-', '2']) ∧
    parseIdxToken ['2', '-', '4'] = .ok (rangeList 2 4) ∧
    parseIdxToken ['1', '-', '2', '-', '3'] =
      .error ("Illegal range specification: " ++
        String.mk ['1', '-', '2', '-', '3']) :=
  ⟨(index_token_range_semantics ['5']).1 ['5'] 5 (by rfl) (by rfl),
   ((index_token_range_semantics ['5', '-', '2']).2.1 ['5'] ['2'] 5 2
      (by rfl) (by rfl) (by rfl)).1 (by norm_num),
   (((index_token_range_semantics ['2', '-', '4']).2.1 ['2'] ['4'] 2 4
      (by rfl) (by rfl) (by rfl)).2 (by norm_num)).1,
   (index_token_range_semantics ['1', '-', '2', '-', '3']).2.2
      [['1'], ['2'], ['3']] (by rfl) (by norm_num)⟩

/-! ## Claim C8: non-numeric tokens inside a bracket group -/

/-- Claim C8 counterexample: the token 2x inside a bracket group is not a
numeric token, yet parsing does not fail: stream extraction reads the
leading digit and silently ignores the trailing x, so the group parses as
the single index 2. -/
theorem nonnumeric_token_accepted_counterexample :
    loadIndices ['2', 'x'] = .ok [2] := by rfl

/-- Claim C8 (amended): a bracket token fails with a syntax error when no
digit can be extracted (for instance a token with no digit at all), but a
token whose text begins with digits is accepted, the digit prefix giving
the index and any trailing non-numeric characters being silently
ignored. -/
theorem token_digit_prefix_semantics :
    (∀ s : Str, (∀ c ∈ s, c.isDigit = false) →
       stringToInt s =
         .error ("Could not read integer from " ++ String.mk s)) ∧
    (∀ ds rest : Str, ds ≠ [] → (∀ c ∈ ds, c.isDigit = true) →
       (∀ c, rest.head? = some c → c.isDigit = false) →
       (∀ c ∈ ds ++ rest, ¬(c = ',') ∧ ¬(c = '-')) →
       loadIndices (ds ++ rest) = .ok [digitsVal ds]) := by
  constructor
  · exact fun s h => stringToInt_no_digit h
  · intro ds rest hne hd hr hcm
    have hnc : ∀ c ∈ ds ++ rest, ¬(c = ',') := fun c hc => (hcm c hc).1
    have hnm : ∀ c ∈ ds ++ rest, ¬(c = '-') := fun c hc => (hcm c hc).2
    have h1 : splitChar ',' (ds ++ rest) = [ds ++ rest] := splitChar_no_delim hnc
    have h2 : splitChar '-' (ds ++ rest) = [ds ++ rest] := splitChar_no_delim hnm
    have h3 := stringToInt_digits hne hd hr
    simp [loadIndices, h1, parseIdxToken, h2, h3, ebind_ok]

/-- Witness for the amended C8 at the tokens x and 2x. -/
theorem token_digit_prefix_semantics_witness :
    stringToInt ['x'] =
      .error ("Could not read integer from " ++ String.mk ['x']) ∧
    loadIndices (['2'] ++ ['x']) = .ok [digitsVal ['2']] :=
  ⟨token_digit_prefix_semantics.1 ['x'] (by decide),
   token_digit_prefix_semantics.2 ['2'] ['x'] (by simp) (by decide)
     (by decide) (by decide)⟩

/-! ## Claim C10: addSource is not atomic -/

/-- Claim C10 (confirmed): when addSource fails while connecting to the
named producer, the source stays registered under that name, and every
later addSource call for the same name returns without error and without
attempting a connection (the result does not depend on the resolution
environment of the second call). -/
theorem addSource_keeps_entry_after_connect_failure
    (net net2 : Str → Bool) (sm : SourceMap) (name : Str)
    (h1 : hasSource sm name = false) (h2 : net name = false) :
    (addSource net sm name).2 =
      .error ("Cannot find requested port: " ++ String.mk name) ∧
    hasSource (addSource net sm name).1 name = true ∧
    addSource net2 (addSource net sm name).1 name =
      ((addSource net sm name).1, .ok ()) := by
  have hhs : hasSource ((name, ([] : Bottle)) :: sm) name = true := by
    simp [hasSource]
  refine ⟨?_, ?_, ?_⟩ <;> simp [addSource, h1, h2, hhs]

/-- Witness for C10 on an empty registry with an unresolvable name. -/
theorem addSource_keeps_entry_witness :
    (addSource (fun _ => false) [] ['/', 'a']).2 =
      .error ("Cannot find requested port: " ++ String.mk ['/', 'a']) ∧
    hasSource (addSource (fun _ => false) [] ['/', 'a']).1 ['/', 'a'] = true ∧
    addSource (fun _ => true) (addSource (fun _ => false) [] ['/', 'a']).1
        ['/', 'a'] =
      ((addSource (fun _ => false) [] ['/', 'a']).1, .ok ()) :=
  addSource_keeps_entry_after_connect_failure
    (fun _ => false) (fun _ => true) [] ['/', 'a'] (by rfl) (by rfl)

/-! ## Claim C1: live frequency reconfiguration -/

/-- Claim C1 counterexample: the live command freq -2 carries a
non-positive frequency, yet the handler reports success and overwrites the
stored period with 1/(-2) = -0.5; the previously effective period 0.1 is
not retained and no validation error is raised. -/
theorem freq_nonpositive_accepted_counterexample :
    respond initialModule [CVal.vocab "freq", CVal.i32 (-2)] =
      (true, { desiredPeriod := -(1/2) }) ∧
    ¬(({ desiredPeriod := -(1/2) } : MergeModule) = initialModule) := by
  constructor
  · have hv : (1 : Rat) / asFloat64 (CVal.i32 (-2)) = -(1/2) := by
      norm_num [asFloat64]
    simp [respond, isNumericCV, setDesiredPeriod, hv]
  · intro h
    have h2 := congrArg MergeModule.desiredPeriod h
    simp [initialModule] at h2
    norm_num at h2

/-- Claim C1 (amended): the live freq command performs no validation at
all: for any numeric argument (here away from 0, where the rational model
of the C++ double is exact) it stores 1/f as the period and reports
success, even for negative f.  Only the configure-time setFrequency path
validates, rejecting f ≤ 0 with the validation error and accepting
positive f. -/
theorem freq_command_no_validation :
    (∀ (m : MergeModule) (x : CVal), isNumericCV x = true →
       ¬(asFloat64 x = 0) →
       respond m [.vocab "freq", x] =
         (true, setDesiredPeriod m (1 / asFloat64 x))) ∧
    (∀ (m : MergeModule) (f : Rat), f ≤ 0 →
       setFrequency m f = .error "Frequency must be larger than 0") ∧
    (∀ (m : MergeModule) (f : Rat), 0 < f →
       setFrequency m f = .ok (setDesiredPeriod m (1 / f))) := by
  refine ⟨?_, ?_, ?_⟩
  · intro m x hnum _
    simp [respond, hnum]
  · intro m f hf
    simp [setFrequency, hf]
  · intro m f hf
    simp [setFrequency, not_le.mpr hf]

/-- Witness for the amended C1 at freq -2, frequency 0 and frequency 4. -/
theorem freq_command_no_validation_witness :
    respond initialModule [.vocab "freq", .i32 (-2)] =
      (true, setDesiredPeriod initialModule (1 / asFloat64 (.i32 (-2)))) ∧
    setFrequency initialModule 0 = .error "Frequency must be larger than 0" ∧
    setFrequency initialModule 4 =
      .ok (setDesiredPeriod initialModule (1 / 4)) :=
  ⟨freq_command_no_validation.1 initialModule (.i32 (-2)) (by rfl)
     (by norm_num [asFloat64]),
   freq_command_no_validation.2.1 initialModule 0 le_rfl,
   freq_command_no_validation.2.2 initialModule 4 (by norm_num)⟩

/-! ## Lemmas on selection -/

theorem ebind_eq_error {ε α β : Type} {x : Except ε α} {f : α → Except ε β}
    {e : ε} :
    (x >>= f) = .error e ↔
      (x = .error e ∨ ∃ a, x = .ok a ∧ f a = .error e) := by
  cases x with
  | ok a => simp [ebind_ok]
  | error e2 => simp [ebind_error]

theorem ebind_eq_ok {ε α β : Type} {x : Except ε α} {f : α → Except ε β}
    {b : β} :
    (x >>= f) = .ok b ↔ ∃ a, x = .ok a ∧ f a = .ok b := by
  cases x with
  | ok a => simp [ebind_ok]
  | error e2 => simp [ebind_error]

/-- The element-wise effect of the last dimension of selectRecursive. -/
theorem selectLoop_lastdim (d : List Int) (inp : Bottle) :
    selectLoop d [] inp = .ok (lastDimExpand inp d) := by
  induction d with
  | nil => simp [selectLoop, lastDimExpand]
  | cons i is ih =>
    simp only [selectLoop, ih, lastDimExpand, List.flatMap_cons]
    rcases bottleGet inp (i - 1) with n | q | st | elems | _ <;>
      simp [ebind_ok, lastDimExpand]

/-- IndexSelector::selectRecursive on a single-dimension path. -/
theorem selectRecursive_single (d : List Int) (inp : Bottle) :
    selectRecursive [d] inp = .ok (lastDimExpand inp d) := by
  rw [selectRecursive]
  exact selectLoop_lastdim d inp

/-- Every error the selection recursion can produce is the non-list
indexing error. -/
theorem selectLoop_error_msg :
    ∀ (rest : List (List Int)) (d : List Int) (inp : Bottle) (e : String),
      selectLoop d rest inp = .error e → e = "Cannot index non-list type" := by
  intro rest
  induction rest with
  | nil =>
    intro d
    induction d with
    | nil =>
      intro inp e h
      simp [selectLoop] at h
    | cons i is ih =>
      intro inp e h
      rw [selectLoop_lastdim] at h
      simp at h
  | cons r1 rs ihrest =>
    intro d
    induction d with
    | nil =>
      intro inp e h
      simp [selectLoop] at h
    | cons i is ih =>
      intro inp e h
      simp only [selectLoop] at h
      rcases hv : bottleGet inp (i - 1) with n | q | st | elems | _ <;>
        rw [hv] at h <;>
        simp only [ebind_error, ebind_ok, Except.error.injEq] at h
      case l =>
        rcases ebind_eq_error.mp h with h1 | ⟨a, ha, h2⟩
        · rw [selectRecursive] at h1
          exact ihrest r1 elems e h1
        · rcases ebind_eq_error.mp h2 with h3 | ⟨b, hb, h4⟩
          · exact ih inp e h3
          · simp at h4
      all_goals exact h.symm

/-- When a dimension that is not the last selects a non-list element, the
recursion fails with the non-list indexing error. -/
theorem selectLoop_mid_scalar :
    ∀ (d : List Int) (r1 : List Int) (rs : List (List Int)) (inp : Bottle),
      (∃ i ∈ d, (bottleGet inp (i - 1)).isList = false) →
      selectLoop d (r1 :: rs) inp = .error "Cannot index non-list type" := by
  intro d
  induction d with
  | nil =>
    intro r1 rs inp h
    simp at h
  | cons i is ih =>
    intro r1 rs inp h
    simp only [selectLoop]
    rcases hv : bottleGet inp (i - 1) with n | q | st | elems | _ <;>
      simp only [ebind_error, ebind_ok]
    case l =>
      have hwit : ∃ j ∈ is, (bottleGet inp (j - 1)).isList = false := by
        rcases h with ⟨j, hj, hjl⟩
        rcases List.mem_cons.mp hj with rfl | hj2
        · rw [hv] at hjl
          simp [Value.isList] at hjl
        · exact ⟨j, hj2, hjl⟩
      cases hrec : selectRecursive (r1 :: rs) elems with
      | error er =>
          rw [ebind_error]
          rw [selectRecursive] at hrec
          rw [selectLoop_error_msg rs r1 elems er hrec]
      | ok v =>
          rw [ebind_ok, ih r1 rs inp hwit, ebind_error]

/-- Selection only ever appends: evaluating against an accumulator with a
prefix prepended yields the prefix prepended to the evaluation against the
accumulator alone. -/
theorem selectList_shift :
    ∀ (ts : List Tree) (sm : SourceMap) (bot : Bottle) (bot2 : Bottle),
      selectList ts sm (bot2 ++ bot) =
        (selectList ts sm bot).map (fun c => bot2 ++ c) := by
  intro ts sm bot
  induction ts, sm, bot using selectList.induct with
  | case1 sm bot =>
      intro bot2
      simp [selectList, Except.map]
  | case2 n idxs ts sm bot ih =>
      intro bot2
      simp only [selectList]
      cases hgs : getSourceData sm n with
      | error e => simp [ebind_error, Except.map]
      | ok data =>
          simp only [ebind_ok]
          cases hic : indexContrib idxs data with
          | error e => simp [ebind_error, Except.map]
          | ok contrib =>
              simp only [ebind_ok]
              rw [List.append_assoc]
              exact ih contrib bot2
  | case3 cs ts sm bot ih1 ih2 =>
      intro bot2
      simp only [selectList]
      cases hin : selectList cs sm [] with
      | error e => simp [ebind_error, Except.map]
      | ok inner =>
          simp only [ebind_ok]
          rw [List.append_assoc]
          exact ih2 inner bot2

/-- Selection relative to the empty accumulator. -/
theorem selectList_append (ts : List Tree) (sm : SourceMap) (bot : Bottle) :
    selectList ts sm bot = (selectList ts sm []).map (fun c => bot ++ c) := by
  have h := selectList_shift ts sm [] bot
  simpa using h

/-- Bottle::get on the empty record is always the null value. -/
theorem bottleGet_nil (idx : Int) : bottleGet [] idx = .nullV := by
  unfold bottleGet
  split
  · rfl
  · simp [List.getD]

/-- The last dimension over an empty record appends one null value per
index. -/
theorem lastDimExpand_nil (d : List Int) :
    lastDimExpand [] d = d.map (fun _ => Value.nullV) := by
  induction d with
  | nil => simp [lastDimExpand]
  | cons i is ih =>
      simp only [lastDimExpand, List.flatMap_cons, bottleGet_nil] at ih ⊢
      rw [ih]
      simp

/-! ## Claim C4: leaf selector splicing -/

/-- Claim C4 (confirmed): a leaf selector with an empty IndexPath appends
every element of the source's cached record, in order, directly to the
accumulator; with a non-empty IndexPath, the last dimension splices in the
children of a selected nested record (one level unwrapped) and appends any
other selected element directly. -/
theorem leaf_select_splice_semantics :
    (∀ (name : Str) (sm : SourceMap) (data : Bottle) (bot : Bottle),
       getSourceData sm name = .ok data →
       selectList [.leaf name []] sm bot = .ok (bot ++ data)) ∧
    (∀ (d : List Int) (inp : Bottle),
       selectRecursive [d] inp = .ok (lastDimExpand inp d)) ∧
    (∀ (inp : Bottle) (i : Int) (elems : List Value),
       bottleGet inp (i - 1) = .l elems → lastDimExpand inp [i] = elems) ∧
    (∀ (inp : Bottle) (i : Int),
       (bottleGet inp (i - 1)).isList = false →
       lastDimExpand inp [i] = [bottleGet inp (i - 1)]) := by
  refine ⟨?_, selectRecursive_single, ?_, ?_⟩
  · intro name sm data bot hgs
    simp [selectList, hgs, ebind_ok, indexContrib]
  · intro inp i elems h
    simp [lastDimExpand, h]
  · intro inp i h
    rcases hv : bottleGet inp (i - 1) with n | q | st | elems | _ <;>
      simp [lastDimExpand, hv] <;> rw [hv] at h <;> simp [Value.isList] at h

/-- Witness for C4: a two-element record spliced whole; one dimension
selecting a nested record (spliced) and a scalar (appended). -/
theorem leaf_select_splice_semantics_witness :
    selectList [.leaf ['a'] []] [(['a'], [Value.i 1, Value.i 2])] [] =
      .ok ([] ++ [Value.i 1, Value.i 2]) ∧
    selectRecursive [[1, 2]] [Value.l [Value.i 7, Value.i 8], Value.s ['x']] =
      .ok (lastDimExpand [Value.l [Value.i 7, Value.i 8], Value.s ['x']] [1, 2]) ∧
    lastDimExpand [Value.l [Value.i 7, Value.i 8]] [1] = [Value.i 7, Value.i 8] ∧
    lastDimExpand [Value.s ['x']] [1] = [Value.s ['x']] :=
  ⟨leaf_select_splice_semantics.1 ['a'] [(['a'], [Value.i 1, Value.i 2])]
     [Value.i 1, Value.i 2] [] (by rfl),
   leaf_select_splice_semantics.2.1 [1, 2]
     [Value.l [Value.i 7, Value.i 8], Value.s ['x']],
   leaf_select_splice_semantics.2.2.1 [Value.l [Value.i 7, Value.i 8]] 1
     [Value.i 7, Value.i 8] (by rfl),
   leaf_select_splice_semantics.2.2.2 [Value.s ['x']] 1 (by rfl)⟩

/-! ## Claim C5: composite wraps, root does not -/

/-- Claim C5 (confirmed): a composite selector appends exactly one new
nested record holding its children's in-order contributions, while the
root selector evaluates the same children directly against the given
accumulator with no extra nesting level. -/
theorem composite_wraps_root_splices :
    (∀ (cs : List Tree) (sm : SourceMap) (bot res : Bottle),
       compositeSelect cs sm bot = .ok res ↔
       ∃ inner, rootSelect cs sm [] = .ok inner ∧
         res = bot ++ [Value.l inner]) ∧
    (∀ (cs : List Tree) (sm : SourceMap) (bot res : Bottle),
       rootSelect cs sm bot = .ok res ↔
       ∃ contrib, rootSelect cs sm [] = .ok contrib ∧
         res = bot ++ contrib) := by
  constructor
  · intro cs sm bot res
    simp only [compositeSelect, rootSelect, selectList]
    cases hin : selectList cs sm [] with
    | error e => simp [ebind_error]
    | ok inner =>
        simp only [ebind_ok, selectList]
        constructor
        · intro h
          exact ⟨inner, rfl, by simpa using h.symm⟩
        · rintro ⟨inner2, h2, rfl⟩
          simp only [Except.ok.injEq] at h2
          rw [h2]
  · intro cs sm bot res
    rw [rootSelect, rootSelect, selectList_append cs sm bot]
    cases hin : selectList cs sm [] with
    | error e => simp [Except.map]
    | ok contrib =>
        simp [Except.map]
        constructor
        · intro h; exact h.symm
        · intro h; exact h.symm

/-! ## Claim C6: indexing a scalar at a non-last dimension -/

/-- Claim C6 (confirmed): whenever a dimension that is not the last
selects an element that is not a nested record, evaluation fails with the
cannot-index-non-list error instead of producing output. -/
theorem mid_dimension_scalar_type_error
    (d r1 : List Int) (rs : List (List Int)) (inp : Bottle)
    (h : ∃ i ∈ d, (bottleGet inp (i - 1)).isList = false) :
    selectRecursive (d :: r1 :: rs) inp =
      .error "Cannot index non-list type" := by
  rw [selectRecursive]
  exact selectLoop_mid_scalar d r1 rs inp h

/-- Witness for C6: the path a[1][1] against a record whose first element
is the plain scalar 5. -/
theorem mid_dimension_scalar_type_error_witness :
    selectRecursive [[1], [1]] [Value.i 5] =
      .error "Cannot index non-list type" :=
  mid_dimension_scalar_type_error [1] [1] [] [Value.i 5]
    ⟨1, by simp, by rfl⟩

/-! ## Claim C2: out-of-range indices -/

/-- Claim C2 counterexample: the path a[5] against the three-element
record 10 20 30 has 5-1 out of bounds, yet evaluation does not fail with
any range error: it succeeds and appends the middleware's null value as an
output element. -/
theorem out_of_range_appends_null_counterexample :
    selectRecursive [[5]] [Value.i 10, Value.i 20, Value.i 30] =
      .ok [Value.nullV] := by
  rw [selectRecursive_single]
  rfl

/-- Claim C2 (amended): an index whose position i-1 lies outside the
current record does not raise a range error, because the record lookup
returns the null value instead: at the last dimension that null value is
appended to the output as an element, and at a dimension that is not the
last the evaluation fails with the cannot-index-non-list error (the only
error this evaluation can produce). -/
theorem out_of_range_no_range_error
    (inp : Bottle) (i : Int)
    (hout : i - 1 < 0 ∨ (inp.length : Int) ≤ i - 1) :
    bottleGet inp (i - 1) = .nullV ∧
    selectRecursive [[i]] inp = .ok [Value.nullV] ∧
    (∀ (d r1 : List Int) (rs : List (List Int)), i ∈ d →
       selectRecursive (d :: r1 :: rs) inp =
         .error "Cannot index non-list type") := by
  have hget : bottleGet inp (i - 1) = .nullV := by
    unfold bottleGet
    rcases hout with h | h
    · rw [if_pos h]
    · rw [if_neg (by omega)]
      apply List.getD_eq_default
      omega
  refine ⟨hget, ?_, ?_⟩
  · rw [selectRecursive_single]
    simp [lastDimExpand, hget]
  · intro d r1 rs hid
    rw [selectRecursive]
    apply selectLoop_mid_scalar
    exact ⟨i, hid, by rw [hget]; rfl⟩

/-- Witness for the amended C2 at index 5 against a three-element
record. -/
theorem out_of_range_no_range_error_witness :
    bottleGet [Value.i 10, Value.i 20, Value.i 30] (5 - 1) = .nullV ∧
    selectRecursive [[5]] [Value.i 10, Value.i 20, Value.i 30] =
      .ok [Value.nullV] ∧
    selectRecursive [[5], [1]] [Value.i 10, Value.i 20, Value.i 30] =
      .error "Cannot index non-list type" := by
  have h := out_of_range_no_range_error
    [Value.i 10, Value.i 20, Value.i 30] 5 (by norm_num)
  exact ⟨h.1, h.2.1, h.2.2 [5] [1] [] (by simp)⟩

/-! ## Claim C9: sources that never delivered data -/

/-- Claim C9 counterexample: a leaf selector with the non-empty IndexPath
of a[1] that references a source whose cached record is still empty does
not yield an empty contribution: the out-of-range lookup appends the null
value as an element. -/
theorem empty_source_nonempty_path_counterexample :
    selectList [Tree.leaf ['/', 'a'] [[1]]] [(['/', 'a'], [])] [] =
      .ok [Value.nullV] := by
  have h1 : getSourceData [(['/', 'a'], ([] : Bottle))] ['/', 'a'] =
      .ok [] := by rfl
  simp only [selectList, h1, ebind_ok, indexContrib, selectRecursive_single]
  simp [lastDimExpand_nil, ebind_ok]

/-- Claim C9 (amended): a source that never delivered a record still holds
its default-constructed empty record, so a leaf selector with an empty
IndexPath contributes nothing; but with a non-empty IndexPath every lookup
is out of range, so a single-dimension path appends one null value per
index, and a longer path fails with the cannot-index-non-list error
(caught at the tick boundary, skipping that tick). -/
theorem empty_source_contribution_semantics :
    (∀ (name : Str) (sm : SourceMap) (bot : Bottle),
       getSourceData sm name = .ok [] →
       selectList [.leaf name []] sm bot = .ok bot) ∧
    (∀ (name : Str) (sm : SourceMap) (bot : Bottle) (d : List Int),
       getSourceData sm name = .ok [] →
       selectList [.leaf name [d]] sm bot =
         .ok (bot ++ d.map (fun _ => Value.nullV))) ∧
    (∀ (name : Str) (sm : SourceMap) (bot : Bottle) (d r1 : List Int)
       (rs : List (List Int)),
       getSourceData sm name = .ok [] → d ≠ [] →
       selectList [.leaf name (d :: r1 :: rs)] sm bot =
         .error "Cannot index non-list type") := by
  refine ⟨?_, ?_, ?_⟩
  · intro name sm bot hgs
    simp [selectList, hgs, ebind_ok, indexContrib]
  · intro name sm bot d hgs
    simp only [selectList, hgs, ebind_ok, indexContrib,
      selectRecursive_single, lastDimExpand_nil]
  · intro name sm bot d r1 rs hgs hd
    have herr : selectRecursive (d :: r1 :: rs) [] =
        .error "Cannot index non-list type" := by
      rw [selectRecursive]
      apply selectLoop_mid_scalar
      rcases d with _ | ⟨i, is⟩
      · exact absurd rfl hd
      · exact ⟨i, by simp, by rw [bottleGet_nil]; rfl⟩
    simp [selectList, hgs, ebind_ok, indexContrib, herr, ebind_error]

/-- Witness for the amended C9 on an empty cached record with an empty
path, the path a[1] and the path a[1][1]. -/
theorem empty_source_contribution_semantics_witness :
    selectList [.leaf ['a'] []] [(['a'], [])] [] = .ok [] ∧
    selectList [.leaf ['a'] [[1]]] [(['a'], [])] [] =
      .ok ([] ++ [1].map (fun _ => Value.nullV)) ∧
    selectList [.leaf ['a'] [[1], [1]]] [(['a'], [])] [] =
      .error "Cannot index non-list type" :=
  ⟨empty_source_contribution_semantics.1 ['a'] [(['a'], [])] [] (by rfl),
   empty_source_contribution_semantics.2.1 ['a'] [(['a'], [])] [] [1] (by rfl),
   empty_source_contribution_semantics.2.2 ['a'] [(['a'], [])] [] [1] [1] []
     (by rfl) (by simp)⟩

/-! ## Round-trip lemmas: tokenizing rendered text -/

theorem ws_not_paren {c : Char} (hws : isWS c = true) :
    ¬(c = '(') ∧ ¬(c = ')') := by
  simp only [isWS, Bool.or_eq_true, decide_eq_true_eq] at hws
  rcases hws with ((rfl | rfl) | rfl) | rfl <;> exact ⟨by decide, by decide⟩

theorem tokenizeAux_ws {c : Char} (hws : isWS c = true) (rest : Str) :
    tokenizeAux none (c :: rest) = tokenizeAux none rest := by
  have hw : wordChar c = false := by simp [wordChar, hws]
  simp [tokenizeAux, hw, (ws_not_paren hws).1, (ws_not_paren hws).2]

theorem tokenizeAux_lpar (rest : Str) :
    tokenizeAux none ('(' :: rest) = .lpar :: tokenizeAux none rest := by
  simp [tokenizeAux, wordChar, isWS]

theorem tokenizeAux_rpar (rest : Str) :
    tokenizeAux none (')' :: rest) = .rpar :: tokenizeAux none rest := by
  simp [tokenizeAux, wordChar, isWS]

theorem tokenizeAux_spaces (n : Nat) (rest : Str) :
    tokenizeAux none (spaces n ++ rest) = tokenizeAux none rest := by
  induction n with
  | zero => simp [spaces]
  | succ k ih =>
      rw [spaces, List.replicate_succ, List.cons_append,
        tokenizeAux_ws (by decide)]
      exact ih

theorem tokenizeAux_word_chars {w : Str}
    (hall : ∀ c ∈ w, wordChar c = true) :
    ∀ (a rest : Str),
      tokenizeAux (some a) (w ++ rest) = tokenizeAux (some (a ++ w)) rest := by
  induction w with
  | nil => intro a rest; simp
  | cons c cs ih =>
      intro a rest
      have hc : wordChar c = true := hall c (by simp)
      rw [List.cons_append, tokenizeAux]
      rw [if_pos hc]
      have := ih (fun x hx => hall x (by simp [hx])) (a ++ [c]) rest
      simpa using this

theorem tokenizeAux_word {w : Str} (hne : w ≠ [])
    (hall : ∀ c ∈ w, wordChar c = true) (rest : Str) :
    tokenizeAux none (w ++ '\n' :: rest) =
      .word w :: tokenizeAux none rest := by
  rcases w with _ | ⟨c, cs⟩
  · exact absurd rfl hne
  · have hc : wordChar c = true := hall c (by simp)
    rw [List.cons_append, tokenizeAux, if_pos hc]
    have hstep := tokenizeAux_word_chars
      (fun x hx => hall x (List.mem_cons_of_mem c hx)) [c] ('\n' :: rest)
    simp only [List.nil_append] at hstep ⊢
    rw [hstep, tokenizeAux]
    rfl

/-! ## Round-trip lemmas: rendered digits and dimensions -/

theorem digitChar_isDigit (k : Nat) : (digitChar k).isDigit = true := by
  unfold digitChar
  split <;> decide

theorem digitVal_digitChar {k : Nat} (h : k < 10) :
    digitVal (digitChar k) = k := by
  interval_cases k <;> decide

theorem renderNat_facts (n : Nat) :
    renderNat n ≠ [] ∧ ∀ c ∈ renderNat n, c.isDigit = true := by
  induction n using Nat.strong_induction_on with
  | _ n ih =>
    rw [renderNat]
    by_cases h : n < 10
    · rw [if_pos h]
      refine ⟨by simp, ?_⟩
      intro c hc
      rcases List.mem_singleton.mp hc with rfl
      exact digitChar_isDigit n
    · rw [if_neg h]
      have hlt : n / 10 < n := Nat.div_lt_self (by omega) (by omega)
      obtain ⟨h1, h2⟩ := ih (n / 10) hlt
      refine ⟨by simp [h1], ?_⟩
      intro c hc
      rcases List.mem_append.mp hc with hc2 | hc2
      · exact h2 c hc2
      · rcases List.mem_singleton.mp hc2 with rfl
        exact digitChar_isDigit (n % 10)

theorem digitsVal_append_digit (xs : Str) (c : Char) :
    digitsVal (xs ++ [c]) = 10 * digitsVal xs + (digitVal c : Int) := by
  simp [digitsVal, List.foldl_append]

theorem digitsVal_renderNat (n : Nat) : digitsVal (renderNat n) = (n : Int) := by
  induction n using Nat.strong_induction_on with
  | _ n ih =>
    rw [renderNat]
    by_cases h : n < 10
    · rw [if_pos h]
      have : digitsVal [digitChar n] = (digitVal (digitChar n) : Int) := by
        simp [digitsVal]
      rw [this, digitVal_digitChar h]
    · rw [if_neg h]
      have hlt : n / 10 < n := Nat.div_lt_self (by omega) (by omega)
      rw [digitsVal_append_digit, ih (n / 10) hlt,
        digitVal_digitChar (Nat.mod_lt n (by omega))]
      omega

theorem stringToInt_renderNat (n : Nat) :
    stringToInt (renderNat n) = .ok ((n : Int)) := by
  obtain ⟨h1, h2⟩ := renderNat_facts n
  have : stringToInt (renderNat n ++ []) = .ok (digitsVal (renderNat n)) :=
    stringToInt_digits h1 h2 (by intro c hc; simp at hc)
  rw [List.append_nil] at this
  rw [this, digitsVal_renderNat]

theorem renderInt_nonneg {k : Int} (h : 0 ≤ k) :
    renderInt k = renderNat k.toNat := by
  rw [renderInt, if_neg (by omega)]

theorem renderInt_digits {k : Int} (h : 0 ≤ k) :
    renderInt k ≠ [] ∧ ∀ c ∈ renderInt k, c.isDigit = true := by
  rw [renderInt_nonneg h]
  exact renderNat_facts k.toNat

theorem stringToInt_renderInt {k : Int} (h : 0 ≤ k) :
    stringToInt (renderInt k) = .ok k := by
  rw [renderInt_nonneg h, stringToInt_renderNat, Int.toNat_of_nonneg h]

theorem renderDim_chars {d : List Int} (hpos : ∀ k ∈ d, 0 ≤ k) :
    ∀ c ∈ renderDim d, c.isDigit = true ∨ c = ',' := by
  induction d with
  | nil => simp [renderDim]
  | cons x xs ih =>
      intro c hc
      rcases xs with _ | ⟨y, ys⟩
      · rw [renderDim] at hc
        exact Or.inl ((renderInt_digits (hpos x (by simp))).2 c hc)
      · rw [renderDim] at hc
        rcases List.mem_append.mp hc with hc2 | hc2
        · exact Or.inl ((renderInt_digits (hpos x (by simp))).2 c hc2)
        · rcases List.mem_cons.mp hc2 with rfl | hc3
          · exact Or.inr rfl
          · exact ih (fun k hk => hpos k (by simp [hk])) c hc3

theorem digit_not_special {c : Char} (h : c.isDigit = true) :
    ¬(c = ',') ∧ ¬(c = '[') ∧ ¬(c = ']') := by
  refine ⟨?_, ?_, ?_⟩ <;> rintro rfl <;> simp at h

theorem groupChars_cons (d : List Int) (ds : List (List Int)) :
    groupChars (d :: ds) = '[' :: (renderDim d ++ (']' :: groupChars ds)) :=
  rfl

theorem groupChars_wordChars {idxs : List (List Int)}
    (h : ∀ d ∈ idxs, d ≠ [] ∧ ∀ k ∈ d, 0 ≤ k) :
    ∀ c ∈ groupChars idxs, wordChar c = true := by
  induction idxs with
  | nil => simp [groupChars]
  | cons d ds ih =>
      intro c hc
      rw [groupChars_cons] at hc
      rcases List.mem_cons.mp hc with rfl | hc2
      · decide
      · rcases List.mem_append.mp hc2 with hc3 | hc3
        · rcases renderDim_chars (h d (by simp)).2 c hc3 with hd | rfl
          · exact digit_wordChar hd
          · decide
        · rcases List.mem_cons.mp hc3 with rfl | hc4
          · decide
          · exact ih (fun d2 hd2 => h d2 (by simp [hd2])) c hc4

theorem isNumWord_of_mem_bracket {w : Str} (h : '[' ∈ w) :
    isNumWord w = false := by
  have hall : ∀ l : Str, '[' ∈ l → l.all Char.isDigit = false := by
    intro l hl
    cases hA : l.all Char.isDigit
    · rfl
    · have h2 := List.all_eq_true.mp hA '[' hl
      simp at h2
  rcases w with _ | ⟨c, rest⟩
  · simp at h
  · rw [isNumWord]
    by_cases hc : (c = '-' || c = '+') = true
    · rw [if_pos hc]
      have hbr : '[' ∈ rest := by
        rcases List.mem_cons.mp h with heq | hm
        · exfalso
          rw [Bool.or_eq_true] at hc
          rcases hc with h1 | h1 <;>
            rw [decide_eq_true_eq] at h1 <;> rw [h1] at heq <;> simp at heq
        · exact hm
      rw [hall rest hbr, Bool.and_false]
    · rw [if_neg hc]
      exact hall (c :: rest) h

theorem splitChar_renderDim {d : List Int} (hpos : ∀ k ∈ d, 0 ≤ k) :
    d ≠ [] → splitChar ',' (renderDim d) = d.map renderInt := by
  induction d with
  | nil => intro h; exact absurd rfl h
  | cons x xs ih =>
      intro _
      rcases xs with _ | ⟨y, ys⟩
      · rw [renderDim]
        rw [splitChar_no_delim (fun c hc =>
          ((digit_not_special ((renderInt_digits (hpos x (by simp))).2 c hc)).1))]
        rfl
      · rw [renderDim]
        rw [splitChar_append_delim (fun c hc =>
          ((digit_not_special ((renderInt_digits (hpos x (by simp))).2 c hc)).1))]
        rw [ih (fun k hk => hpos k (by simp [hk])) (by simp)]
        rfl

theorem parseIdxToken_renderInt {x : Int} (h : 0 ≤ x) :
    parseIdxToken (renderInt x) = .ok [x] := by
  have hsplit : splitChar '-' (renderInt x) = [renderInt x] :=
    splitChar_no_delim (fun c hc =>
      digit_not_minus ((renderInt_digits h).2 c hc))
  simp [parseIdxToken, hsplit, stringToInt_renderInt h, ebind_ok]

theorem loadIndices_fold_render :
    ∀ (d : List Int) (acc : List Int), (∀ k ∈ d, 0 ≤ k) →
      (d.map renderInt).foldlM (fun acc tok => do
        let l ← parseIdxToken tok
        pure (acc ++ l)) acc = .ok (acc ++ d) := by
  intro d
  induction d with
  | nil =>
      intro acc _
      simp
      rfl
  | cons x xs ih =>
      intro acc hpos
      rw [List.map_cons, List.foldlM_cons,
        parseIdxToken_renderInt (hpos x (by simp))]
      have := ih (acc ++ [x]) (fun k hk => hpos k (by simp [hk]))
      simp only [ebind_ok]
      simpa using this

theorem loadIndices_renderDim {d : List Int} (hne : d ≠ [])
    (hpos : ∀ k ∈ d, 0 ≤ k) :
    loadIndices (renderDim d) = .ok d := by
  rw [loadIndices, splitChar_renderDim hpos hne]
  simpa using loadIndices_fold_render d [] hpos

/-- Unpacks the leaf well-formedness boolean. -/
theorem wfLeaf_parts {n : Str} {idxs : List (List Int)}
    (h : wfLeaf n idxs = true) :
    (∀ c ∈ n, wordChar c = true ∧ ¬(c = '[')) ∧
    (idxs = [] → n ≠ [] ∧ isNumWord n = false) ∧
    (∀ d ∈ idxs, d ≠ [] ∧ ∀ k ∈ d, 0 ≤ k) := by
  rw [wfLeaf.eq_def, Bool.and_eq_true, Bool.and_eq_true] at h
  obtain ⟨⟨hn, hmatch⟩, hdims⟩ := h
  refine ⟨?_, ?_, ?_⟩
  · intro c hc
    have := List.all_eq_true.mp hn c hc
    rw [Bool.and_eq_true] at this
    exact ⟨this.1, by simpa using this.2⟩
  · rintro rfl
    simp only [Bool.and_eq_true] at hmatch
    constructor
    · have := hmatch.1
      simp only [Bool.not_eq_true'] at this
      intro hnil
      rw [hnil] at this
      simp at this
    · simpa using hmatch.2
  · intro d hd
    have := List.all_eq_true.mp hdims d hd
    rw [Bool.and_eq_true] at this
    constructor
    · have h1 := this.1
      simp only [Bool.not_eq_true'] at h1
      intro hnil
      rw [hnil] at h1
      simp at h1
    · intro k hk
      have := List.all_eq_true.mp this.2 k hk
      simpa using this

/-- Tokenizing the rendered form of a well-formed sibling list yields its
word and parenthesis tokens, whatever the indentation. -/
theorem tokenize_listToString :
    ∀ (ts : List Tree), wfList ts = true →
    ∀ (ind : Nat) (rest : Str),
      tokenizeAux none (listToString ind ts ++ rest) =
        tokWordsList ts ++ tokenizeAux none rest := by
  intro ts
  induction ts using tokWordsList.induct with
  | case1 =>
      intro _ ind rest
      simp [listToString, tokWordsList]
  | case2 n idxs ts ih =>
      intro hwf ind rest
      rw [wfList, Bool.and_eq_true] at hwf
      obtain ⟨hleaf, hts⟩ := hwf
      obtain ⟨hname, hempty, hdims⟩ := wfLeaf_parts hleaf
      have hword : ∀ c ∈ n ++ groupChars idxs, wordChar c = true := by
        intro c hc
        rcases List.mem_append.mp hc with hc2 | hc2
        · exact (hname c hc2).1
        · exact groupChars_wordChars hdims c hc2
      have hwne : n ++ groupChars idxs ≠ [] := by
        rcases idxs with _ | ⟨d, ds⟩
        · have := (hempty rfl).1
          simpa [groupChars] using this
        · rw [groupChars_cons]
          simp
      rw [listToString, tokWordsList]
      have hassoc :
          (spaces ind ++ n ++ groupChars idxs ++ ['\n']) ++
              listToString ind ts ++ rest =
            spaces ind ++ ((n ++ groupChars idxs) ++
              '\n' :: (listToString ind ts ++ rest)) := by
        simp
      rw [hassoc, tokenizeAux_spaces, tokenizeAux_word hwne hword,
        ih hts ind rest]
      rfl
  | case3 cs ts ihcs ihts =>
      intro hwf ind rest
      rw [wfList, Bool.and_eq_true] at hwf
      obtain ⟨hcs, hts⟩ := hwf
      rw [listToString, tokWordsList]
      have hassoc :
          ((spaces ind ++ ['(', '\n']) ++ listToString (ind + 2) cs ++
              (spaces ind ++ [')', '\n']) ++ listToString ind ts) ++ rest =
            spaces ind ++ ('(' :: '\n' :: (listToString (ind + 2) cs ++
              (spaces ind ++ (')' :: '\n' ::
                (listToString ind ts ++ rest))))) := by
        simp
      rw [hassoc, tokenizeAux_spaces, tokenizeAux_lpar,
        tokenizeAux_ws (by decide),
        ihcs hcs (ind + 2) (spaces ind ++ (')' :: '\n' ::
          (listToString ind ts ++ rest))),
        tokenizeAux_spaces, tokenizeAux_rpar, tokenizeAux_ws (by decide),
        ihts hts ind rest]
      simp

theorem findChar_none {ch : Char} {l : Str} (h : ∀ c ∈ l, ¬(c = ch)) :
    findChar ch l = none := by
  induction l with
  | nil => rfl
  | cons x xs ih =>
      have hx : ¬(x = ch) := h x (by simp)
      rw [findChar, if_neg hx, ih (fun c hc => h c (by simp [hc]))]
      rfl

theorem findChar_append_first {ch : Char} {p s : Str}
    (h : ∀ c ∈ p, ¬(c = ch)) :
    findChar ch (p ++ ch :: s) = some p.length := by
  induction p with
  | nil => simp [findChar]
  | cons x xs ih =>
      have hx : ¬(x = ch) := h x (by simp)
      rw [List.cons_append, findChar, if_neg hx,
        ih (fun c hc => h c (by simp [hc]))]
      rfl

theorem loadBrackets_render :
    ∀ (idxs : List (List Int)) (p : Str),
      idxs ≠ [] → (∀ d ∈ idxs, d ≠ [] ∧ ∀ k ∈ d, 0 ≤ k) →
      loadBrackets (p ++ groupChars idxs) p.length = .ok idxs := by
  intro idxs
  induction idxs with
  | nil =>
      intro p h _
      exact absurd rfl h
  | cons d ds ih =>
      intro p _ hwf
      obtain ⟨hdne, hdpos⟩ := hwf d (by simp)
      have hrd_chars := renderDim_chars hdpos
      have hrd_ne_rb : ∀ c ∈ renderDim d, ¬(c = ']') := by
        intro c hc
        rcases hrd_chars c hc with h1 | rfl
        · exact (digit_not_special h1).2.2
        · decide
      have hrd_ne_lb : ∀ c ∈ renderDim d, ¬(c = '[') := by
        intro c hc
        rcases hrd_chars c hc with h1 | rfl
        · exact (digit_not_special h1).2.1
        · decide
      have hdrop : (p ++ groupChars (d :: ds)).drop p.length =
          groupChars (d :: ds) := by
        rw [List.drop_left]
      have hdrop1 : (p ++ groupChars (d :: ds)).drop (p.length + 1) =
          renderDim d ++ (']' :: groupChars ds) := by
        rw [← List.drop_drop 1 p.length (p ++ groupChars (d :: ds)),
          hdrop, groupChars_cons]
        rfl
      have hf1 : findFrom (p ++ groupChars (d :: ds)) ']' p.length =
          some ((renderDim d).length + 1 + p.length) := by
        rw [findFrom, hdrop, groupChars_cons, findChar,
          if_neg (by decide), findChar_append_first hrd_ne_rb]
        rfl
      rw [loadBrackets.eq_def]
      split
      · rename_i hnone
        rw [hf1] at hnone
        cases hnone
      · rename_i idxEnd hEnd
        rw [hf1, Option.some.injEq] at hEnd
        subst hEnd
        have hsub : substr (p ++ groupChars (d :: ds)) (p.length + 1)
            ((renderDim d).length + 1 + p.length - p.length - 1) =
            renderDim d := by
          have harg : (renderDim d).length + 1 + p.length - p.length - 1 =
              (renderDim d).length := by omega
          rw [harg, substr, hdrop1, List.take_left]
        rw [hsub, loadIndices_renderDim hdne hdpos, ebind_ok]
        rcases ds with _ | ⟨e, es⟩
        · have hf2 : findFrom (p ++ groupChars [d]) '[' (p.length + 1) =
              none := by
            rw [findFrom, hdrop1, findChar_none]
            · rfl
            · intro c hc
              rcases List.mem_append.mp hc with hc2 | hc2
              · exact hrd_ne_lb c hc2
              · rcases List.mem_cons.mp hc2 with rfl | hc3
                · decide
                · simp [groupChars] at hc3
          split
          · rfl
          · rename_i idxStart2 hS
            rw [hf2] at hS
            cases hS
        · have hsplit2 : renderDim d ++ (']' :: groupChars (e :: es)) =
              (renderDim d ++ [']']) ++
                ('[' :: (renderDim e ++ (']' :: groupChars es))) := by
            rw [groupChars_cons]
            simp
          have hf2 : findFrom (p ++ groupChars (d :: e :: es)) '['
              (p.length + 1) =
              some ((renderDim d).length + 1 + (p.length + 1)) := by
            rw [findFrom, hdrop1, hsplit2, findChar_append_first]
            · simp
            · intro c hc
              rcases List.mem_append.mp hc with hc2 | hc2
              · exact hrd_ne_lb c hc2
              · rcases List.mem_singleton.mp hc2 with rfl
                decide
          split
          · rename_i hS
            rw [hf2] at hS
            cases hS
          · rename_i idxStart2 hS
            rw [hf2, Option.some.injEq] at hS
            subst hS
            rw [if_neg (by omega)]
            have hp2 : p ++ groupChars (d :: e :: es) =
                (p ++ ('[' :: (renderDim d ++ [']']))) ++
                  groupChars (e :: es) := by
              rw [groupChars_cons, groupChars_cons]
              simp
            have hlen2 : (renderDim d).length + 1 + (p.length + 1) =
                (p ++ ('[' :: (renderDim d ++ [']']))).length := by
              simp
              omega
            rw [hp2, hlen2,
              ih (p ++ ('[' :: (renderDim d ++ [']']))) (by simp)
                (fun d2 hd2 => hwf d2 (by simp [hd2])), ebind_ok]

/-- Reparsing the printed form of a well-formed leaf recovers its name and
index path. -/
theorem loadFormat_render {n : Str} {idxs : List (List Int)}
    (h : wfLeaf n idxs = true) :
    loadFormat (n ++ groupChars idxs) = .ok (n, idxs) := by
  obtain ⟨hname, _, hdims⟩ := wfLeaf_parts h
  rcases idxs with _ | ⟨d, ds⟩
  · rw [loadFormat.eq_def]
    have : groupChars [] = [] := rfl
    rw [this, List.append_nil, findChar_none (fun c hc => (hname c hc).2)]
  · rw [loadFormat.eq_def, groupChars_cons,
      findChar_append_first (fun c hc => (hname c hc).2)]
    split
    · rename_i h0
      cases h0
    · rename_i i hi
      rw [Option.some.injEq] at hi
      subst hi
      rw [← groupChars_cons, loadBrackets_render (d :: ds) n (by simp) hdims,
        ebind_ok, List.take_left]

theorem classifyWord_leaf {n : Str} {idxs : List (List Int)}
    (h : wfLeaf n idxs = true) :
    classifyWord (n ++ groupChars idxs) = .str (n ++ groupChars idxs) := by
  have hf : isNumWord (n ++ groupChars idxs) = false := by
    rcases idxs with _ | ⟨d, ds⟩
    · have hg : groupChars [] = [] := rfl
      rw [hg, List.append_nil]
      exact ((wfLeaf_parts h).2.1 rfl).2
    · apply isNumWord_of_mem_bracket
      rw [groupChars_cons]
      simp
  rw [classifyWord, hf]
  rfl

theorem parseStack_render :
    ∀ (ts : List Tree), wfList ts = true →
    ∀ (rest : List Tok) (stk : List (List FormatVal)) (acc : List FormatVal),
      parseStack (tokWordsList ts ++ rest) stk acc =
        parseStack rest stk ((fvOfTreeList ts).reverse ++ acc) := by
  intro ts
  induction ts using tokWordsList.induct with
  | case1 =>
      intro _ rest stk acc
      simp [tokWordsList, fvOfTreeList]
  | case2 n idxs ts ih =>
      intro hwf rest stk acc
      rw [wfList, Bool.and_eq_true] at hwf
      obtain ⟨hleaf, hts⟩ := hwf
      rw [tokWordsList, fvOfTreeList, List.cons_append, parseStack,
        classifyWord_leaf hleaf,
        ih hts rest stk (.str (n ++ groupChars idxs) :: acc)]
      congr 1
      simp

  | case3 cs ts ihcs ihts =>
      intro hwf rest stk acc
      rw [wfList, Bool.and_eq_true] at hwf
      obtain ⟨hcs, hts⟩ := hwf
      rw [tokWordsList, fvOfTreeList]
      have h1 : (Tok.lpar :: (tokWordsList cs ++
          (Tok.rpar :: tokWordsList ts))) ++ rest =
          Tok.lpar :: (tokWordsList cs ++
            (Tok.rpar :: (tokWordsList ts ++ rest))) := by
        simp
      rw [h1, parseStack,
        ihcs hcs (Tok.rpar :: (tokWordsList ts ++ rest)) (acc :: stk) [],
        List.append_nil, parseStack,
        ihts hts rest stk (.list (fvOfTreeList cs).reverse.reverse :: acc)]
      congr 1
      simp

theorem wfFVList_append :
    ∀ (l1 l2 : List FormatVal),
      wfFVList (l1 ++ l2) = (wfFVList l1 && wfFVList l2) := by
  intro l1
  induction l1 using wfFVList.induct with
  | case1 => intro l2; simp [wfFVList]
  | case2 w vs ih =>
      intro l2
      rw [List.cons_append, wfFVList, wfFVList, ih]
      simp [Bool.and_assoc]
  | case3 w vs ih =>
      intro l2
      rw [List.cons_append, wfFVList, wfFVList, ih]
  | case4 es vs ih1 ih2 =>
      intro l2
      rw [List.cons_append, wfFVList, wfFVList, ih2]
      simp [Bool.and_assoc]

theorem wfFVList_reverse :
    ∀ (l : List FormatVal), wfFVList l.reverse = wfFVList l := by
  intro l
  induction l using wfFVList.induct with
  | case1 => simp
  | case2 w vs ih =>
      rw [List.reverse_cons, wfFVList_append, ih, wfFVList, wfFVList,
        wfFVList, Bool.and_comm]
      simp [Bool.and_comm]
  | case3 w vs ih =>
      rw [List.reverse_cons, wfFVList_append, ih, wfFVList, wfFVList,
        wfFVList]
      simp
  | case4 es vs ih1 ih2 =>
      rw [List.reverse_cons, wfFVList_append, ih2, wfFVList, wfFVList,
        wfFVList, Bool.and_comm]
      simp [Bool.and_comm]

theorem tokenizeAux_nil_eq (acc : Option Str) :
    tokenizeAux acc [] =
      (match acc with | none => [] | some w => [Tok.word w]) := rfl

theorem tokenizeAux_cons_eq (acc : Option Str) (c : Char) (rest : Str) :
    tokenizeAux acc (c :: rest) =
      if wordChar c then
        tokenizeAux
          (some ((match acc with | none => [] | some w => w) ++ [c])) rest
      else
        (match acc with | none => [] | some w => [Tok.word w]) ++
        (if c = '(' then [Tok.lpar]
         else if c = ')' then [Tok.rpar] else []) ++
        tokenizeAux none rest := rfl

theorem tokenizeAux_words_wf :
    ∀ (cs : Str) (acc : Option Str),
      (∀ a, acc = some a → a ≠ [] ∧ ∀ c ∈ a, wordChar c = true) →
      ∀ w, Tok.word w ∈ tokenizeAux acc cs →
        w ≠ [] ∧ ∀ c ∈ w, wordChar c = true := by
  intro cs
  induction cs with
  | nil =>
      intro acc hacc w hw
      rcases acc with _ | a
      · rw [tokenizeAux_nil_eq] at hw
        simp at hw
      · rw [tokenizeAux_nil_eq] at hw
        simp only [List.mem_singleton, Tok.word.injEq] at hw
        subst hw
        exact hacc _ rfl
  | cons c rest ih =>
      intro acc hacc w hw
      rw [tokenizeAux_cons_eq] at hw
      by_cases hc : wordChar c = true
      · rw [if_pos hc] at hw
        refine ih _ ?_ w hw
        intro a ha
        rw [Option.some.injEq] at ha
        subst ha
        constructor
        · simp
        · intro x hx
          rcases List.mem_append.mp hx with hx2 | hx2
          · rcases acc with _ | a0
            · simp at hx2
            · exact (hacc a0 rfl).2 x hx2
          · rcases List.mem_singleton.mp hx2 with rfl
            exact hc
      · rw [if_neg hc] at hw
        rcases List.mem_append.mp hw with hw2 | hw2
        · rcases List.mem_append.mp hw2 with hw3 | hw3
          · rcases acc with _ | a0
            · simp at hw3
            · simp only [List.mem_singleton, Tok.word.injEq] at hw3
              subst hw3
              exact hacc _ rfl
          · by_cases h1 : c = '('
            · rw [if_pos h1] at hw3
              simp at hw3
            · rw [if_neg h1] at hw3
              by_cases h2 : c = ')'
              · rw [if_pos h2] at hw3
                simp at hw3
              · rw [if_neg h2] at hw3
                simp at hw3
        · exact ih none (by intro a ha; cases ha) w hw2

theorem parseStack_wf :
    ∀ (toks : List Tok) (stk : List (List FormatVal)) (acc : List FormatVal),
      (∀ w, Tok.word w ∈ toks → w ≠ [] ∧ ∀ c ∈ w, wordChar c = true) →
      (∀ l ∈ stk, wfFVList l = true) → wfFVList acc = true →
      ∀ out, parseStack toks stk acc = some out → wfFVList out = true := by
  intro toks stk acc
  induction toks, stk, acc using parseStack.induct with
  | case1 acc =>
      intro _ _ hacc out hp
      rw [parseStack, Option.some.injEq] at hp
      subst hp
      rw [wfFVList_reverse]
      exact hacc
  | case2 h1 t1 acc =>
      intro _ _ _ out hp
      rw [parseStack] at hp
      cases hp
  | case3 w rest stk acc ih =>
      intro htoks hstk hacc out hp
      rw [parseStack] at hp
      refine ih (fun w2 hw2 => htoks w2 (by simp [hw2])) hstk ?_ out hp
      have hword := htoks w (by simp)
      cases hcl : classifyWord w with
      | str w2 =>
          rw [classifyWord] at hcl
          by_cases hnum : isNumWord w = true
          · rw [if_pos hnum] at hcl
            cases hcl
          · rw [if_neg hnum] at hcl
            injection hcl with hcl2
            subst hcl2
            have hnum2 : isNumWord w = false := Bool.eq_false_iff.mpr hnum
            have hne : w.isEmpty = false := by
              rcases hm : w with _ | ⟨c0, cs0⟩
              · exact absurd hm hword.1
              · rfl
            rw [wfFVList]
            simp [hne, hnum2, List.all_eq_true.mpr hword.2, hacc]
      | num w2 =>
          rw [wfFVList]
          exact hacc
      | list es =>
          rw [classifyWord] at hcl
          by_cases hnum : isNumWord w = true
          · rw [if_pos hnum] at hcl
            cases hcl
          · rw [if_neg hnum] at hcl
            cases hcl
  | case4 rest stk acc ih =>
      intro htoks hstk hacc out hp
      rw [parseStack] at hp
      refine ih (fun w2 hw2 => htoks w2 (by simp [hw2])) ?_ (by rw [wfFVList])
        out hp
      intro l hl
      rcases List.mem_cons.mp hl with rfl | hl2
      · exact hacc
      · exact hstk l hl2
  | case5 rest acc =>
      intro _ _ _ out hp
      rw [parseStack] at hp
      cases hp
  | case6 rest acc up stk2 ih =>
      intro htoks hstk hacc out hp
      rw [parseStack] at hp
      refine ih (fun w2 hw2 => htoks w2 (by simp [hw2]))
        (fun l hl => hstk l (by simp [hl])) ?_ out hp
      rw [wfFVList]
      simp only [Bool.and_eq_true]
      exact ⟨by rw [wfFVList_reverse]; exact hacc, hstk up (by simp)⟩

theorem findChar_take {ch : Char} :
    ∀ {l : Str} {i : Nat}, findChar ch l = some i →
      ∀ c ∈ l.take i, ¬(c = ch) := by
  intro l
  induction l with
  | nil => intro i h; simp [findChar] at h
  | cons x xs ih =>
      intro i h
      rw [findChar] at h
      by_cases hx : x = ch
      · rw [if_pos hx, Option.some.injEq] at h
        subst h
        simp
      · rw [if_neg hx] at h
        rcases hm : findChar ch xs with _ | j
        · rw [hm] at h
          cases h
        · rw [hm] at h
          simp only [Option.map_some', Option.some.injEq] at h
          subst h
          intro c hc
          rw [List.take_succ_cons] at hc
          rcases List.mem_cons.mp hc with rfl | hc2
          · exact hx
          · exact ih hm c hc2

theorem findChar_none_mem {ch : Char} :
    ∀ {l : Str}, findChar ch l = none → ∀ c ∈ l, ¬(c = ch) := by
  intro l
  induction l with
  | nil => intro _ c hc; simp at hc
  | cons x xs ih =>
      intro h c hc
      rw [findChar] at h
      by_cases hx : x = ch
      · rw [if_pos hx] at h
        cases h
      · rw [if_neg hx] at h
        rcases List.mem_cons.mp hc with rfl | hc2
        · exact hx
        · rcases hm : findChar ch xs with _ | j
          · exact ih hm c hc2
          · rw [hm] at h
            cases h

theorem parseIdxToken_ok_facts {t : Str} {l : List Int}
    (h : parseIdxToken t = .ok l) : l ≠ [] ∧ ∀ k ∈ l, 0 ≤ k := by
  have hparts := @splitChar_parts_no_delim '-' t
  rcases hs : splitChar '-' t with _ | ⟨x, rest1⟩
  · rw [parseIdxToken, hs] at h
    cases h
  rcases rest1 with _ | ⟨y, rest2⟩
  · rw [parseIdxToken, hs] at h
    rcases ebind_eq_ok.mp h with ⟨v, hv, h2⟩
    simp only [Except.ok.injEq] at h2
    subst h2
    refine ⟨by simp, ?_⟩
    intro k hk
    rcases List.mem_singleton.mp hk with rfl
    exact stringToInt_nonneg_of_no_minus
      (fun c hc => hparts x (by rw [hs]; simp) c hc) hv
  rcases rest2 with _ | ⟨z, rest3⟩
  · rw [parseIdxToken, hs] at h
    rcases ebind_eq_ok.mp h with ⟨a, ha, h2⟩
    rcases ebind_eq_ok.mp h2 with ⟨b, hb, h3⟩
    have hapos : 0 ≤ a := stringToInt_nonneg_of_no_minus
      (fun c hc => hparts x (by rw [hs]; simp) c hc) ha
    by_cases hab : a > b
    · rw [if_pos hab] at h3
      cases h3
    · rw [if_neg hab] at h3
      simp only [Except.ok.injEq] at h3
      subst h3
      refine ⟨rangeList_ne_nil (by omega), ?_⟩
      intro k hk
      have := mem_rangeList.mp hk
      omega
  · rw [parseIdxToken, hs] at h
    cases h

theorem loadIndices_fold_facts :
    ∀ (toks : List Str) (acc out : List Int),
      toks.foldlM (fun acc tok => do
        let l ← parseIdxToken tok
        pure (acc ++ l)) acc = .ok out →
      (acc ≠ [] → out ≠ []) ∧ (toks ≠ [] → out ≠ []) ∧
      ((∀ k ∈ acc, 0 ≤ k) → ∀ k ∈ out, 0 ≤ k) := by
  intro toks
  induction toks with
  | nil =>
      intro acc out h
      simp only [List.foldlM_nil] at h
      have : acc = out := by
        have h2 : (pure acc : Except String (List Int)) = .ok acc := rfl
        rw [h2, Except.ok.injEq] at h
        exact h
      subst this
      exact ⟨fun h2 => h2, fun h2 => by simp at h2, fun h2 => h2⟩
  | cons t ts ih =>
      intro acc out h
      rw [List.foldlM_cons] at h
      rcases ebind_eq_ok2 : (do
          let l ← parseIdxToken t
          pure (acc ++ l) : Except String (List Int)) with e | a1
      · rw [ebind_eq_ok2] at h
        rw [ebind_error] at h
        cases h
      · rw [ebind_eq_ok2] at h
        rw [ebind_ok] at h
        rcases ebind_eq_ok.mp ebind_eq_ok2 with ⟨l1, hl1, h2⟩
        have hpure : (pure (acc ++ l1) : Except String (List Int)) =
            .ok (acc ++ l1) := rfl
        rw [hpure, Except.ok.injEq] at h2
        subst h2
        obtain ⟨hlne, hlpos⟩ := parseIdxToken_ok_facts hl1
        obtain ⟨ih1, _, ih3⟩ := ih (acc ++ l1) out h
        have hne : acc ++ l1 ≠ [] := by simp [hlne]
        refine ⟨fun _ => ih1 hne, fun _ => ih1 hne, ?_⟩
        intro hacc k hk
        refine ih3 ?_ k hk
        intro k2 hk2
        rcases List.mem_append.mp hk2 with hk3 | hk3
        · exact hacc k2 hk3
        · exact hlpos k2 hk3

theorem loadIndices_ok_facts {s : Str} {dim : List Int}
    (h : loadIndices s = .ok dim) : dim ≠ [] ∧ ∀ k ∈ dim, 0 ≤ k := by
  rw [loadIndices] at h
  obtain ⟨_, h2, h3⟩ := loadIndices_fold_facts (splitChar ',' s) [] dim h
  exact ⟨h2 (splitChar_ne_nil ',' s), h3 (by simp)⟩

theorem loadBrackets_ok_facts {cs : Str} :
    ∀ (i : Nat) (l : List (List Int)), loadBrackets cs i = .ok l →
      l ≠ [] ∧ ∀ d ∈ l, d ≠ [] ∧ ∀ k ∈ d, 0 ≤ k := by
  intro i
  induction i using loadBrackets.induct cs with
  | case1 x hnone =>
      intro l h
      rw [loadBrackets.eq_def] at h
      split at h
      · cases h
      · rename_i idxEnd hEnd
        rw [hnone] at hEnd
        cases hEnd
  | case2 x idxEnd hEnd ih =>
      intro l h
      rw [loadBrackets.eq_def] at h
      split at h
      · cases h
      · rename_i idxEnd2 hEnd2
        rcases hdim : loadIndices (substr cs (x + 1) (idxEnd2 - x - 1))
          with e | dim
        · rw [hdim, ebind_error] at h
          cases h
        · rw [hdim, ebind_ok] at h
          obtain ⟨hdne, hdpos⟩ := loadIndices_ok_facts hdim
          split at h
          · simp only [Except.ok.injEq] at h
            subst h
            refine ⟨by simp, ?_⟩
            intro d hd
            rcases List.mem_singleton.mp hd with rfl
            exact ⟨hdne, hdpos⟩
          · rename_i idxStart2 hS
            split at h
            · cases h
            · rcases hrest : loadBrackets cs idxStart2 with e | rest2
              · rw [hrest, ebind_error] at h
                cases h
              · rw [hrest, ebind_ok] at h
                simp only [Except.ok.injEq] at h
                subst h
                obtain ⟨_, hrest2⟩ := ih idxStart2 hS rest2 hrest
                refine ⟨by simp, ?_⟩
                intro d hd
                rcases List.mem_cons.mp hd with rfl | hd2
                · exact ⟨hdne, hdpos⟩
                · exact hrest2 d hd2

theorem wfLeaf_intro {n : Str} {idxs : List (List Int)}
    (h1 : ∀ c ∈ n, wordChar c = true ∧ ¬(c = '['))
    (h2 : idxs = [] → n ≠ [] ∧ isNumWord n = false)
    (h3 : ∀ d ∈ idxs, d ≠ [] ∧ ∀ k ∈ d, 0 ≤ k) : wfLeaf n idxs = true := by
  rw [wfLeaf.eq_def]
  simp only [Bool.and_eq_true]
  refine ⟨⟨?_, ?_⟩, ?_⟩
  · rw [List.all_eq_true]
    intro c hc
    rw [Bool.and_eq_true]
    exact ⟨(h1 c hc).1, by simp [(h1 c hc).2]⟩
  · rcases idxs with _ | ⟨d, ds⟩
    · obtain ⟨hne, hnum⟩ := h2 rfl
      have hie : n.isEmpty = false := by
        rcases hm : n with _ | ⟨c0, cs0⟩
        · exact absurd hm hne
        · rfl
      simp [hie, hnum]
    · rfl
  · rw [List.all_eq_true]
    intro d hd
    rw [Bool.and_eq_true]
    obtain ⟨hdne, hdpos⟩ := h3 d hd
    constructor
    · have hie : d.isEmpty = false := by
        rcases hm : d with _ | ⟨k0, ks0⟩
        · exact absurd hm hdne
        · rfl
      simp [hie]
    · rw [List.all_eq_true]
      intro k hk
      simp [hdpos k hk]

theorem loadFormat_wf {w n : Str} {idxs : List (List Int)}
    (hwne : w ≠ []) (hwc : ∀ c ∈ w, wordChar c = true)
    (hnum : isNumWord w = false)
    (h : loadFormat w = .ok (n, idxs)) : wfLeaf n idxs = true := by
  rw [loadFormat.eq_def] at h
  split at h
  · rename_i hnone
    simp only [Except.ok.injEq, Prod.mk.injEq] at h
    obtain ⟨rfl, rfl⟩ := h
    exact wfLeaf_intro
      (fun c hc => ⟨hwc c hc, findChar_none_mem hnone c hc⟩)
      (fun _ => ⟨hwne, hnum⟩)
      (by intro d hd; simp at hd)
  · rename_i i hfind
    rcases hdims : loadBrackets w i with e | dims
    · rw [hdims, ebind_error] at h
      cases h
    · rw [hdims, ebind_ok] at h
      simp only [Except.ok.injEq, Prod.mk.injEq] at h
      obtain ⟨rfl, rfl⟩ := h
      obtain ⟨hdne, hdfacts⟩ := loadBrackets_ok_facts i dims hdims
      refine wfLeaf_intro ?_ (fun hc => absurd hc hdne) hdfacts
      intro c hc
      have hcw : c ∈ w := List.take_subset i w hc
      exact ⟨hwc c hcw, findChar_take hfind c hc⟩

theorem loadFormatList_wf :
    ∀ (vs : List FormatVal) (ts : List Tree), wfFVList vs = true →
      loadFormatList vs = .ok ts → wfList ts = true := by
  intro vs
  induction vs using loadFormatList.induct with
  | case1 =>
      intro ts _ h
      rw [loadFormatList, Except.ok.injEq] at h
      subst h
      rw [wfList]
  | case2 w vs ih =>
      intro ts hwf h
      rw [wfFVList, Bool.and_eq_true, Bool.and_eq_true, Bool.and_eq_true]
          at hwf
      obtain ⟨⟨⟨hne, hall⟩, hnum⟩, hvs⟩ := hwf
      rw [loadFormatList] at h
      rcases hlf : loadFormat w with e | ⟨n, idxs⟩
      · rw [hlf, ebind_error] at h
        cases h
      · rcases hrest : loadFormatList vs with e | ts2
        · simp only [hlf, hrest, ebind_ok, ebind_error] at h
          cases h
        · simp only [hlf, hrest, ebind_ok, ebind_error,
            Except.ok.injEq] at h
          subst h
          rw [wfList, Bool.and_eq_true]
          have hwne : w ≠ [] := by
            simp only [Bool.not_eq_true'] at hne
            intro hnil
            rw [hnil] at hne
            cases hne
          refine ⟨loadFormat_wf hwne ?_ ?_ hlf, ih ts2 hvs hrest⟩
          · exact fun c hc => List.all_eq_true.mp hall c hc
          · simpa using hnum
  | case3 w tail =>
      intro ts _ h
      rw [loadFormatList] at h
      cases h
  | case4 es vs ih1 ih2 =>
      intro ts hwf h
      rw [wfFVList, Bool.and_eq_true] at hwf
      obtain ⟨hes, hvs⟩ := hwf
      rw [loadFormatList] at h
      rcases hcs : loadFormatList es with e | cs
      · rw [hcs, ebind_error] at h
        cases h
      · rw [hcs, ebind_ok] at h
        rcases hrest : loadFormatList vs with e | ts2
        · rw [hrest, ebind_error] at h
          cases h
        · rw [hrest, ebind_ok] at h
          simp only [Except.ok.injEq] at h
          subst h
          rw [wfList, Bool.and_eq_true]
          exact ⟨ih1 cs hes hcs, ih2 ts2 hvs hrest⟩

theorem loadFormatList_render :
    ∀ (ts : List Tree), wfList ts = true →
      loadFormatList (fvOfTreeList ts) = .ok ts := by
  intro ts
  induction ts using tokWordsList.induct with
  | case1 =>
      intro _
      rw [fvOfTreeList, loadFormatList]
  | case2 n idxs ts ih =>
      intro hwf
      rw [wfList, Bool.and_eq_true] at hwf
      obtain ⟨hleaf, hts⟩ := hwf
      rw [fvOfTreeList, loadFormatList]
      simp only [loadFormat_render hleaf, ih hts, ebind_ok]
  | case3 cs ts ihcs ihts =>
      intro hwf
      rw [wfList, Bool.and_eq_true] at hwf
      obtain ⟨hcs, hts⟩ := hwf
      rw [fvOfTreeList, loadFormatList]
      simp only [ihcs hcs, ihts hts, ebind_ok]

theorem parseFormatText_wf {s : Str} {ts : List Tree}
    (h : parseFormatText s = .ok ts) : wfList ts = true := by
  rw [parseFormatText] at h
  split at h
  · rename_i elems heq
    have htoks : ∀ w, Tok.word w ∈ tokenize s →
        w ≠ [] ∧ ∀ c ∈ w, wordChar c = true :=
      tokenizeAux_words_wf s none (by intro a ha; cases ha)
    have hwfout := parseStack_wf (tokenize s) [] [] htoks
      (by intro l hl; simp at hl) (by rw [wfFVList]) [.list elems] heq
    rw [wfFVList, Bool.and_eq_true] at hwfout
    exact loadFormatList_wf elems ts hwfout.1 h
  · cases h

/-! ## Claim C3: toString round trip -/

/-- Claim C3 (confirmed): whenever a format text parses successfully into
a selector tree, printing the tree with toString (the RootSelector variant
inherited from CompositeSelector) and re-parsing the printed text yields
exactly the same tree: same leaf names, same index list per dimension (the
printed form is the range-expanded canonical form), same grouping, no
extra nesting level. -/
theorem toString_reparse_equivalent (s : Str) (ts : List Tree)
    (h : parseFormatText s = .ok ts) :
    parseFormatText (rootToString ts) = .ok ts := by
  have hwf := parseFormatText_wf h
  have htok : tokenize (rootToString ts) =
      Tok.lpar :: (tokWordsList ts ++ [Tok.rpar]) := by
    rw [rootToString, tokenize, listToString]
    have hnil : listToString 0 ([] : List Tree) = [] := by rw [listToString]
    have hsp : spaces 0 = [] := rfl
    rw [hnil, hsp]
    have hshape : (([] : Str) ++ ['(', '\n']) ++ listToString (0 + 2) ts ++
        (([] : Str) ++ [')', '\n']) ++ [] =
        '(' :: ('\n' :: (listToString 2 ts ++ (')' :: ('\n' :: [])))) := by
      simp
    rw [hshape, tokenizeAux_lpar, tokenizeAux_ws (by decide),
      tokenize_listToString ts hwf 2 (')' :: ('\n' :: [])),
      tokenizeAux_rpar, tokenizeAux_ws (by decide), tokenizeAux_nil_eq]
  have hstack : parseStack (tokenize (rootToString ts)) [] [] =
      some [.list (fvOfTreeList ts)] := by
    rw [htok]
    have h1 : parseStack (Tok.lpar :: (tokWordsList ts ++ [Tok.rpar])) [] [] =
        parseStack (tokWordsList ts ++ [Tok.rpar]) [[]] [] := rfl
    have h2 := parseStack_render ts hwf [Tok.rpar] [[]] []
    have h3 : parseStack [Tok.rpar] [[]] ((fvOfTreeList ts).reverse ++ []) =
        some [FormatVal.list (((fvOfTreeList ts).reverse ++ []).reverse)] :=
      rfl
    rw [h1, h2, h3]
    simp
  rw [parseFormatText, hstack]
  exact loadFormatList_render ts hwf

/-- Witness for C3 at the format (/a (/b)). -/
theorem toString_reparse_equivalent_witness :
    parseFormatText (rootToString
      [Tree.leaf ['/', 'a'] [], Tree.comp [Tree.leaf ['/', 'b'] []]]) =
      .ok [Tree.leaf ['/', 'a'] [], Tree.comp [Tree.leaf ['/', 'b'] []]] :=
  toString_reparse_equivalent "(/a (/b))".toList
    [Tree.leaf ['/', 'a'] [], Tree.comp [Tree.leaf ['/', 'b'] []]]
    (by
      simp [parseFormatText, tokenize, tokenizeAux, wordChar, isWS,
        parseStack, classifyWord, isNumWord, loadFormatList, loadFormat,
        findChar]
      rfl)

end Merge
